import Mathlib

/-!
Verification of the taxonomy-assembly and cascading-selection engine of the
SEC-Helper repository (src/basic.py, src/utils.py), via a shallow embedding.

Python dict values in the category tree are modelled by the inductive type
Node; a dict key that may be absent is an Option, and the children slot
distinguishes the key being absent, holding None, or holding a dict.
Python exceptions are modelled with the Except monad over PyErr.
-/

/-- Kinds of Python exceptions that the embedded code can raise. -/
inductive PyErr where
  | keyError
  | indexError
  | typeError
  | attributeError
  | valueError
deriving DecidableEq, Repr

mutual

/-- A node of the category tree: a Python dict with the keys the engine
reads. tagName models the optional key tag_name, rid the optional key id,
customProperties the optional key custom_properties (whose inner Option Nat
is the optional size entry), and children the key children. -/
inductive Node where
  | mk (tagName : Option String) (rid : Option String)
      (customProperties : Option (Option Nat)) (children : ChildrenF)

/-- The children slot of a node: the key can be absent, can hold Python
None, or can hold a dict of child nodes. -/
inductive ChildrenF where
  | absent
  | null
  | dict (entries : List (String × Node))

end

def Node.tagName : Node → Option String
  | .mk t _ _ _ => t

def Node.rid : Node → Option String
  | .mk _ r _ _ => r

def Node.customProperties : Node → Option (Option Nat)
  | .mk _ _ c _ => c

def Node.children : Node → ChildrenF
  | .mk _ _ _ c => c

/-- Association-list lookup, modelling Python dict indexing. -/
def alget : List (String × Node) → String → Option Node
  | [], _ => none
  | (k, v) :: rest, key => if k = key then some v else alget rest key

/-- Python dict assignment d[k] = v: replace the value in place when the key
exists (keeping its position), append otherwise. -/
def upsert : List (String × Node) → String → Node → List (String × Node)
  | [], k, v => [(k, v)]
  | (k', v') :: rest, k, v =>
    if k' = k then (k, v) :: rest else (k', v') :: upsert rest k v

/-- Python dict.update(cs): assign every entry of cs in order. -/
def updAll (m : List (String × Node)) (cs : List (String × Node)) :
    List (String × Node) :=
  cs.foldl (fun a p => upsert a p.1 p.2) m

/-! ## Phase A: tag hierarchy ingestion (utils.parse_material) -/

mutual

/-- One element of the hierarchies payload: a dict with a children list. -/
inductive Hier where
  | mk (children : List HChild)

/-- One child entry of a hierarchy element: tag_id, tag_name and the nested
hierarchies list. -/
inductive HChild where
  | mk (tag_id : String) (tag_name : String) (hierarchies : List Hier)

end

def Hier.children : Hier → List HChild
  | .mk cs => cs

def HChild.tag_id : HChild → String
  | .mk i _ _ => i

def HChild.tag_name : HChild → String
  | .mk _ n _ => n

def HChild.hierarchies : HChild → List Hier
  | .mk _ _ hs => hs

/-- The children value stored by parse_material: Python None when the
recursive call returned None, the dict otherwise. -/
def childrenOfOpt : Option (List (String × Node)) → ChildrenF
  | none => .null
  | some m => .dict m

mutual

/-- utils.parse_material: returns None for a falsy (empty) hierarchies list,
otherwise the dict tag_id to a dict of tag_name and the recursively parsed
children. -/
def parse_material : List Hier → Option (List (String × Node))
  | [] => none
  | m :: rest => some (pmHiers (m :: rest) [])
termination_by ms => (sizeOf ms, 2)

/-- The double loop of parse_material, building the parsed dict. -/
def pmHiers : List Hier → List (String × Node) → List (String × Node)
  | [], acc => acc
  | .mk cs :: rest, acc => pmHiers rest (pmChildren cs acc)
termination_by ms _ => (sizeOf ms, 1)

/-- Inner loop of parse_material over the children of one hierarchy entry. -/
def pmChildren : List HChild → List (String × Node) → List (String × Node)
  | [], acc => acc
  | .mk tid tname hs :: rest, acc =>
    pmChildren rest
      (upsert acc tid (.mk (some tname) none none (childrenOfOpt (parse_material hs))))
termination_by cs _ => (sizeOf cs, 0)

end

/-- The entry parse_material stores for one child: its tag_id keying a
record of its tag_name and the recursive build of its nested hierarchies. -/
def childEntry (c : HChild) : String × Node :=
  (c.tag_id, Node.mk (some c.tag_name) none none
    (childrenOfOpt (parse_material c.hierarchies)))

/-- All child entries of a hierarchies payload, in the iteration order of
parse_material's double loop. -/
def childEntries : List Hier → List (String × Node)
  | [] => []
  | .mk cs :: rest => cs.map childEntry ++ childEntries rest

/-! ## Phase B: resource splicing (Basic._fetch_materials) -/

/-- A raw resource record from a shard: the fields the splice reads.
tag_paths models the list under the key tag_paths (absent becomes the empty
list via dict.get); rid models the optional key id; customProperties as in
Node. -/
structure RawRes where
  tag_paths : List String
  rid : Option String
  customProperties : Option (Option Nat)

/-- The resource record seen as a tree node once spliced in: it has no
tag_name key and no children key. -/
def RawRes.toNode (r : RawRes) : Node :=
  .mk none r.rid r.customProperties .absent

/-- Python str.split("/") (single-character separator), written by structural
recursion over the character list so that concrete instances reduce. -/
def splitSegs : List Char → List (List Char)
  | [] => [[]]
  | c :: rest =>
    if c = '/' then [] :: splitSegs rest
    else
      match splitSegs rest with
      | [] => [[c]]
      | seg :: segs => (c :: seg) :: segs

/-- tag_paths[0].split("/") of the source, modelled faithfully. -/
def pySplitSlash (s : String) : List String :=
  (splitSegs s.data).map (fun l => String.mk l)

/-- The walk and insert of lines 503-514 of basic.py: iterate the remaining
path segments; at each step temp_materials["children"].get(path,
temp_materials) raises KeyError when the children key is absent and
AttributeError when it holds None, descends when the segment is a key of the
dict and stays put otherwise. At the end of the walk,
"if not temp_materials["children"]" (KeyError when absent) replaces a falsy
value by an empty dict, and the record is inserted under res["id"] (KeyError
when the record has no id). -/
def walkInsert (node : Node) (paths : List String) (res : Node)
    (rid : Option String) : Except PyErr Node :=
  match paths with
  | [] =>
    match node with
    | .mk tn ri cp ch =>
      match ch with
      | .absent => .error .keyError
      | .null =>
        match rid with
        | none => .error .keyError
        | some i => .ok (.mk tn ri cp (.dict (upsert [] i res)))
      | .dict m =>
        match rid with
        | none => .error .keyError
        | some i => .ok (.mk tn ri cp (.dict (upsert m i res)))
  | p :: rest =>
    match node with
    | .mk tn ri cp ch =>
      match ch with
      | .absent => .error .keyError
      | .null => .error .attributeError
      | .dict m =>
        match alget m p with
        | some child =>
          match walkInsert child rest res rid with
          | .error e => .error e
          | .ok child' => .ok (.mk tn ri cp (.dict (upsert m p child')))
        | none => walkInsert node rest res rid

/-- The guard of line 500 of basic.py: res_paths[0] not in
temp_materials.get("children", {}). An absent children key falls back to the
empty dict; a None value makes the membership test raise TypeError. -/
def memberNextSeg (top : Node) (r0 : String) : Except PyErr Bool :=
  match top.children with
  | .absent => .ok false
  | .null => .error .typeError
  | .dict m => .ok (alget m r0).isSome

/-- Processing of a single resource record by Basic._fetch_materials
(lines 488-514): skip on falsy tag_paths or falsy first path; then
materials[path_parts[1]] (TypeError when materials is None, IndexError when
the path has fewer than two segments, KeyError when the top tag is not a
key); then the guard on res_paths[0] (IndexError when the path has exactly
two segments); then the walk and insert. -/
def processRecord (mats : Option (List (String × Node))) (res : RawRes) :
    Except PyErr (Option (List (String × Node))) :=
  match res.tag_paths with
  | [] => .ok mats
  | tp0 :: _ =>
    if tp0 = "" then .ok mats
    else
      let parts := pySplitSlash tp0
      match mats with
      | none => .error .typeError
      | some entries =>
        match parts.get? 1 with
        | none => .error .indexError
        | some seg1 =>
          match alget entries seg1 with
          | none => .error .keyError
          | some top =>
            match parts.drop 2 with
            | [] => .error .indexError
            | r0 :: _ =>
              match memberNextSeg top r0 with
              | .error e => .error e
              | .ok false => .ok mats
              | .ok true =>
                match walkInsert top (parts.drop 2) res.toNode res.rid with
                | .error e => .error e
                | .ok top' => .ok (some (upsert entries seg1 top'))

/-- The per-record loop inside one shard of Basic._fetch_materials: the
enclosing try only catches requests.RequestException, so any PyErr raised by
a record propagates and aborts the whole batch. -/
def fetchBatchRecords (mats : Option (List (String × Node))) :
    List RawRes → Except PyErr (Option (List (String × Node)))
  | [] => .ok mats
  | r :: rest =>
    match processRecord mats r with
    | .error e => .error e
    | .ok m' => fetchBatchRecords m' rest

/-! ## Resource flattener (utils.parse_resource) -/

/-- The loop of utils.parse_resource with the accumulated parsed dict:
iterate the values of the dict; a value with an id key is stored under
parsed[res["id"]]; otherwise a value with a children key is flattened
recursively with a fresh dict (parse_resource(None) raises AttributeError
when that key holds None) and merged with dict.update; other values are
ignored. -/
def parseResourceGo : List (String × Node) → List (String × Node) →
    Except PyErr (List (String × Node))
  | [], acc => .ok acc
  | (_, n) :: rest, acc =>
    match n with
    | .mk _ (some i) _ _ => parseResourceGo rest (upsert acc i n)
    | .mk _ none _ (.dict m) =>
      match parseResourceGo m [] with
      | .error e => .error e
      | .ok cs => parseResourceGo rest (updAll acc cs)
    | .mk _ none _ .null => .error .attributeError
    | .mk _ none _ .absent => parseResourceGo rest acc
termination_by l _ => sizeOf l

/-- utils.parse_resource. -/
def parse_resource (materials : List (String × Node)) :
    Except PyErr (List (String × Node)) :=
  parseResourceGo materials []

/-! ## Specification-side companions for the flattener -/

/-- The descendant resource leaves of a children dict, in traversal order
(a node with an id key is a leaf and is not traversed further). -/
def collectLeaves : List (String × Node) → List (String × Node)
  | [] => []
  | (_, n) :: rest =>
    match n with
    | .mk _ (some i) _ _ => (i, n) :: collectLeaves rest
    | .mk _ none _ (.dict m) => collectLeaves m ++ collectLeaves rest
    | .mk _ none _ .null => collectLeaves rest
    | .mk _ none _ .absent => collectLeaves rest
termination_by l => sizeOf l

/-- True when no node reachable without crossing a resource leaf carries a
None children value, so that flattening cannot raise. -/
def noNullChildren : List (String × Node) → Bool
  | [] => true
  | (_, n) :: rest =>
    match n with
    | .mk _ (some _) _ _ => noNullChildren rest
    | .mk _ none _ (.dict m) => noNullChildren m && noNullChildren rest
    | .mk _ none _ .null => false
    | .mk _ none _ .absent => noNullChildren rest
termination_by l => sizeOf l

/-- The value associated to a key by the LAST entry of an association list
carrying it, if any. -/
def lastAssoc : List (String × Node) → String → Option Node
  | [], _ => none
  | (k, v) :: rest, key =>
    match lastAssoc rest key with
    | some w => some w
    | none => if k = key then some v else none

/-! ## Stats (Basic._on_option_change lines 382-388) -/

/-- The sum resource["custom_properties"].get("size", 0) over the resource
set: raises KeyError when a record has no custom_properties key, and an
absent size entry counts as 0. -/
def sizeTotalE : List (String × Node) → Except PyErr Nat
  | [] => .ok 0
  | (_, n) :: rest =>
    match n.customProperties with
    | none => .error .keyError
    | some cp =>
      match sizeTotalE rest with
      | .error e => .error e
      | .ok s => .ok (cp.getD 0 + s)

/-- The declared size of one resource record with an absent size treated
as 0, and the sum of declared sizes of a resource set. -/
def declaredSize (n : Node) : Nat :=
  (n.customProperties.getD none).getD 0

def declaredSum (rs : List (String × Node)) : Nat :=
  (rs.map (fun p => declaredSize p.2)).sum

/-! ## Cascade controller (Basic._on_option_change and helpers)

Modelled from the spec: the WIDGET table lives in config.py, which is not
under src/; the spec (sections 3 and 4.4) fixes the cascade order of the
material_frame selector menus as top-category, subject, provider/version,
special-category, special-stage, grade, volume, and the sentinel
"not selected" default value. Everything else below is translated from
basic.py. -/

/-- The seven cascade selector fields, in cascade (WIDGET) order. -/
inductive FieldK where
  | material
  | subject
  | provider
  | category
  | stage
  | grade
  | volume
deriving DecidableEq, Repr, Fintype

/-- The cascade order of the selector fields. -/
def fieldOrder : List FieldK :=
  [.material, .subject, .provider, .category, .stage, .grade, .volume]

/-- The index of a field in the cascade order. -/
def fieldIdx : FieldK → Nat
  | .material => 0
  | .subject => 1
  | .provider => 2
  | .category => 3
  | .stage => 4
  | .grade => 5
  | .volume => 6

/-- The sentinel default value of an OptionMenu (config.get("default",
"- 请选择 -") in basic.py). -/
def sentinel : String := "- 请选择 -"

/-- The state of one selector field: the tk variable value, whether the
widget is gridded (visible), its enabled state, and its menu options beyond
the retained default entry. -/
structure FieldState where
  value : String
  visible : Bool
  enabled : Bool
  options : List String
deriving DecidableEq, Repr

/-- The selector fields of the material frame. -/
structure Menus where
  material : FieldState
  subject : FieldState
  provider : FieldState
  category : FieldState
  stage : FieldState
  grade : FieldState
  volume : FieldState
deriving DecidableEq, Repr

def Menus.get (m : Menus) : FieldK → FieldState
  | .material => m.material
  | .subject => m.subject
  | .provider => m.provider
  | .category => m.category
  | .stage => m.stage
  | .grade => m.grade
  | .volume => m.volume

def Menus.set (m : Menus) : FieldK → FieldState → Menus
  | .material, f => { m with material := f }
  | .subject, f => { m with subject := f }
  | .provider, f => { m with provider := f }
  | .category, f => { m with category := f }
  | .stage, f => { m with stage := f }
  | .grade, f => { m with grade := f }
  | .volume, f => { m with volume := f }

/-- The effect of Basic._reset_menu_option on one field: disable the widget,
clear the menu options beyond the default entry, and set the variable back
to its default value (the reset is trace-suppressed, see the TracedVar
model below). Visibility is not touched. -/
def resetF (f : FieldState) : FieldState :=
  { f with value := sentinel, enabled := false, options := [] }

/-- toggle_widget_state followed by the conditional reset used throughout
Basic._update_menu_state: show the field when b holds, otherwise hide and
reset it. -/
def applyVis (m : Menus) (k : FieldK) (b : Bool) : Menus :=
  if b then m.set k { m.get k with visible := true }
  else m.set k (resetF { m.get k with visible := false })

/-- Basic._update_menu_state: the visibility recompute. When the changed
widget is the material menu, subject_value and category_value are None
(modelled as the none of Option String); otherwise they are the current
variable values. The subject width change is pure display and is not
modelled. -/
def update_menu_state (k : FieldK) (m : Menus) : Menus :=
  let mv := m.material.value
  let sv : Option String := if k = .material then none else some m.subject.value
  let cv : Option String := if k = .material then none else some m.category.value
  let isInfoTech : Bool :=
    decide ((mv = "小学" ∨ mv = "初中") ∧ sv = some "信息科技")
  let m1 := applyVis m .provider (!isInfoTech)
  let isSpecEduc : Bool := decide (mv = "特殊教育")
  let m2 := applyVis m1 .category isSpecEduc
  let m3 := applyVis m2 .stage (isSpecEduc && !decide (cv = some "培智学校"))
  let m4 := applyVis m3 .provider (!(isSpecEduc || isInfoTech))
  let isSpecialSubject : Bool :=
    !decide (sv = some "德语") && !decide (sv = some "法语")
  let isSpecialGrade : Bool := decide (mv = "高中") && isSpecialSubject
  let specEduInfoTech : Bool :=
    isSpecEduc && decide (cv = some "培智学校") && decide (sv = some "信息技术")
  let m5 := applyVis m4 .grade (!(isSpecialGrade || specEduInfoTech))
  applyVis m5 .volume specEduInfoTech

/-- The visible material-frame menus in WIDGET order (the widget_keys list
of _on_option_change). -/
def visibleKeys (m : Menus) : List FieldK :=
  fieldOrder.filter (fun k => (m.get k).visible)

/-- Basic._reset_menu_option applied to widget_keys from start_index on:
reset every listed field. -/
def resetAfter (m : Menus) (ks : List FieldK) (start : Nat) : Menus :=
  (ks.drop start).foldl (fun a k => a.set k (resetF (a.get k))) m

/-- One level of the cascade descent (lines 343-351 of basic.py): find the
first dict value whose tag_name equals the selected value. Iterating a
value without a tag_name key raises KeyError; when the match is found its
children value is returned (None or a dict); exhaustion is StopIteration. -/
def findChildren : List (String × Node) → String →
    Except PyErr (Option (Option (List (String × Node))))
  | [], _ => .ok none
  | (_, n) :: rest, v =>
    match n with
    | .mk none _ _ _ => .error .keyError
    | .mk (some t) _ _ ch =>
      if t = v then
        match ch with
        | .dict m => .ok (some (some m))
        | .null => .ok (some none)
        | .absent => .error .keyError
      else findChildren rest v

/-- The descent loop over the selected values of the visible fields up to
the changed one: None.values() raises AttributeError; a StopIteration stops
the loop with the flag set, keeping the current level. -/
def descend (mats : Option (List (String × Node))) :
    List String → Except PyErr (Option (List (String × Node)) × Bool)
  | [] => .ok (mats, false)
  | v :: rest =>
    match mats with
    | none => .error .attributeError
    | some entries =>
      match findChildren entries v with
      | .error e => .error e
      | .ok none => .ok (mats, true)
      | .ok (some mats') => descend mats' rest

/-- The option labels material["tag_name"] collected when populating the
next menu (lines 359-365): every value of the dict is read, so a value
without a tag_name key raises KeyError. -/
def tagNames : List (String × Node) → Except PyErr (List String)
  | [] => .ok []
  | (_, n) :: rest =>
    match n.tagName with
    | none => .error .keyError
    | some t =>
      match tagNames rest with
      | .error e => .error e
      | .ok ts => .ok (t :: ts)

/-- The try/except around parse_resource in the resolve step: an exception
while flattening (including parse_resource(None)) is caught and yields no
resource set. -/
def flattenCaught : Option (List (String × Node)) →
    Option (List (String × Node))
  | none => none
  | some entries =>
    match parse_resource entries with
    | .error _ => none
    | .ok r => some r

/-- The controller state surrounding one transition: the selector fields,
the published resource set, the status totals, the download button state and
whether the recoverable parse failure dialog was shown. -/
structure TState where
  menus : Menus
  resources : List (String × Node)
  size_total : Nat
  count_total : Nat
  statusSet : Bool
  downloadEnabled : Bool
  errorReported : Bool

/-- Basic._on_option_change for the changed widget k, given the category
tree (self.materials): recompute visibility, find the widget index among the
visible menus (ValueError when absent), reset the downstream visible menus,
clear the resource set and status, descend the tree along the selected
values, then either populate the next menu or resolve by flattening and
publishing the stats. Uncaught Python exceptions appear as error results. -/
def on_option_change (tree : List (String × Node)) (k : FieldK) (st : TState) :
    Except PyErr TState :=
  let m1 := update_menu_state k st.menus
  let ks := visibleKeys m1
  if k ∈ ks then
    let i := ks.indexOf k
    let m2 := resetAfter m1 ks (i + 1)
    let vals := (ks.take (i + 1)).map (fun f => (m2.get f).value)
    match descend (some tree) vals with
    | .error e => .error e
    | .ok (mats, stop) =>
      if i + 1 < ks.length && !stop then
        match mats with
        | none => .error .attributeError
        | some entries =>
          match tagNames entries with
          | .error e => .error e
          | .ok names =>
            match ks.get? (i + 1) with
            | none => .error .indexError
            | some nk =>
              .ok { menus := m2.set nk { m2.get nk with options := names, enabled := true },
                    resources := [], size_total := 0, count_total := 0,
                    statusSet := false, downloadEnabled := false,
                    errorReported := false }
      else
        let flat := flattenCaught mats
        let res := flat.getD []
        match sizeTotalE res with
        | .error e => .error e
        | .ok sz =>
          .ok { menus := m2, resources := res, size_total := sz,
                count_total := res.length, statusSet := true,
                downloadEnabled := !res.isEmpty,
                errorReported := flat.isNone }
  else .error .valueError

/-! ## Trace suppression (Basic._reset_menu_option lines 671-677) -/

/-- A tk StringVar together with whether a write trace is currently
attached. -/
structure TracedVar where
  value : String
  traced : Bool
deriving DecidableEq, Repr

/-- Writing a value to the variable: the change handler fires exactly when a
trace is attached. The returned number counts handler invocations. -/
def varSet (v : TracedVar) (s : String) : TracedVar × Nat :=
  ({ v with value := s }, if v.traced then 1 else 0)

/-- The trace handling of _reset_menu_option for one variable:
trace_remove, set the default value, trace_add. -/
def resetVarTraced (v : TracedVar) (dflt : String) : TracedVar × Nat :=
  let v1 : TracedVar := { v with traced := false }
  let p := varSet v1 dflt
  ({ p.1 with traced := true }, p.2)

/-- The loop of _reset_menu_option over the remaining menus, counting every
handler invocation it causes. -/
def resetVarsTraced : List (TracedVar × String) → List TracedVar × Nat
  | [] => ([], 0)
  | (v, d) :: rest =>
    let p := resetVarTraced v d
    let q := resetVarsTraced rest
    (p.1 :: q.1, p.2 + q.2)

/-! ## Concrete instances used by witnesses and counterexamples -/

/-- Two resource records sharing the id x but with different sizes. -/
def resDupA : Node := .mk none (some "x") (some (some 1)) .absent

def resDupB : Node := .mk none (some "x") (some (some 2)) .absent

/-- Three resource records of sizes 1000, 2048 and 0 under one leaf. -/
def res1000 : Node := .mk none (some "r1") (some (some 1000)) .absent

def res2048 : Node := .mk none (some "r2") (some (some 2048)) .absent

def res0 : Node := .mk none (some "r3") (some (some 0)) .absent

def leafMap3 : List (String × Node) :=
  [("r1", res1000), ("r2", res2048), ("r3", res0)]

/-- A four-level taxonomy branch reaching the three resources. -/
def lvGrade : Node := .mk (some "一年级") none none (.dict leafMap3)

def lvVersion : Node := .mk (some "人教版") none none (.dict [("g", lvGrade)])

def lvSubject : Node := .mk (some "语文") none none (.dict [("v", lvVersion)])

def lvStage : Node := .mk (some "小学") none none (.dict [("s", lvSubject)])

def cTree6 : List (String × Node) := [("m", lvStage)]

/-- A fully selected menu state matching cTree6. -/
def cMenus6 : Menus :=
  { material := ⟨"小学", true, true, []⟩
    subject := ⟨"语文", true, true, []⟩
    provider := ⟨"人教版", true, true, []⟩
    category := ⟨sentinel, false, false, []⟩
    stage := ⟨sentinel, false, false, []⟩
    grade := ⟨"一年级", true, true, []⟩
    volume := ⟨sentinel, false, false, []⟩ }

def cSt6 : TState :=
  { menus := cMenus6, resources := [], size_total := 0, count_total := 0,
    statusSet := false, downloadEnabled := false, errorReported := false }

/-- The state published by the resolving transition on cTree6. -/
def cSt6' : TState :=
  { menus := cMenus6, resources := leafMap3, size_total := 3048,
    count_total := 3, statusSet := true, downloadEnabled := true,
    errorReported := false }

/-- The key list of an association list. -/
def keysOf (l : List (String × Node)) : List String :=
  l.map Prod.fst

/-- The splice walk succeeds on this node and path list: every node reached
while segments remain must carry a dict children value, and the node reached
at the end of the walk must have a children key (its value may be None). -/
def walkOK : Node → List String → Bool
  | n, [] =>
    match n.children with
    | .absent => false
    | _ => true
  | n, p :: rest =>
    match n.children with
    | .dict m =>
      match alget m p with
      | some c => walkOK c rest
      | none => walkOK n rest
    | _ => false

/-- Modelled from the spec: the splice step as section 4.2 words it — walk
the remaining segments, at each step descend into children[segment] if
present, else stay at the current node; at the final node ensure a children
mapping exists (default to empty) and insert the record under its id. -/
def spliceSpec (node : Node) (paths : List String) (res : Node) (i : String) :
    Node :=
  match paths with
  | [] =>
    match node with
    | .mk tn ri cp ch =>
      match ch with
      | .dict m => .mk tn ri cp (.dict (upsert m i res))
      | _ => .mk tn ri cp (.dict (upsert [] i res))
  | p :: rest =>
    match node with
    | .mk tn ri cp ch =>
      match ch with
      | .dict m =>
        match alget m p with
        | some c => .mk tn ri cp (.dict (upsert m p (spliceSpec c rest res i)))
        | none => spliceSpec node rest res i
      | _ => spliceSpec node rest res i

/-- The visible or hidden configuration of all selector fields, in cascade
order. -/
def visConfig (m : Menus) : List Bool :=
  fieldOrder.map (fun k => (m.get k).visible)

/-- A visibility assignment for the seven fields, used to state finite facts
about the visible-widget list by exhaustive evaluation. -/
def boolsOf (b0 b1 b2 b3 b4 b5 b6 : Bool) : FieldK → Bool := fun f =>
  match f with
  | .material => b0
  | .subject => b1
  | .provider => b2
  | .category => b3
  | .stage => b4
  | .grade => b5
  | .volume => b6

/-- A Phase-A style top node with one child stage holding an empty dict. -/
def topNodeGood : Node :=
  .mk (some "电子教材") none none
    (.dict [("A", Node.mk (some "stageA") none none (.dict []))])

/-- A Phase-A style top node whose child carries a None children value, as
parse_material produces for a leaf tag. -/
def topNodeNull : Node :=
  .mk (some "电子教材") none none
    (.dict [("A", Node.mk (some "stageA") none none .null)])

/-- A record whose top tag U is not a key of the Phase-A tree. -/
def recBadTop : RawRes :=
  { tag_paths := ["专题/U/A"], rid := some "rb",
    customProperties := some (some 1) }

/-- A well-formed record for the tree rooted at T. -/
def recGood : RawRes :=
  { tag_paths := ["专题/T/A"], rid := some "rg",
    customProperties := some (some 2) }

/-- A record whose segment after the top tag is not among the top node's
children. -/
def recBadSeg : RawRes :=
  { tag_paths := ["专题/T/X"], rid := some "rx",
    customProperties := some (some 1) }

/-- A record whose path continues below a tag with a None children value. -/
def recDeep : RawRes :=
  { tag_paths := ["专题/T/A/B"], rid := some "rd",
    customProperties := some (some 3) }

/-- A category tree whose next level exists, used for the cascade
counterexample: selecting the top category repopulates and enables the
subject menu. -/
def cTree7 : List (String × Node) :=
  [("m", Node.mk (some "小学") none none
    (.dict [("s", Node.mk (some "语文") none none .null)]))]

def cMenus7 : Menus :=
  { material := ⟨"小学", true, true, []⟩
    subject := ⟨sentinel, true, false, []⟩
    provider := ⟨sentinel, true, false, []⟩
    category := ⟨sentinel, false, false, []⟩
    stage := ⟨sentinel, false, false, []⟩
    grade := ⟨sentinel, true, false, []⟩
    volume := ⟨sentinel, false, false, []⟩ }

def cSt7 : TState :=
  { menus := cMenus7, resources := [], size_total := 0, count_total := 0,
    statusSet := false, downloadEnabled := false, errorReported := false }

/-- The state after selecting the top category on cTree7: the subject menu
is repopulated and enabled while still holding the sentinel. -/
def cSt7' : TState :=
  { menus := { cMenus7 with subject := ⟨sentinel, true, true, ["语文"]⟩ },
    resources := [], size_total := 0, count_total := 0,
    statusSet := false, downloadEnabled := false, errorReported := false }

/-- A tree on which the resolve step must flatten a node holding a None
children value, making parse_resource raise. -/
def cTree8 : List (String × Node) :=
  [("i1", Node.mk (some "甲") none none .null)]

def cMenus8 : Menus :=
  { material := ⟨"乙", true, true, []⟩
    subject := ⟨sentinel, true, false, []⟩
    provider := ⟨sentinel, true, false, []⟩
    category := ⟨sentinel, false, false, []⟩
    stage := ⟨sentinel, false, false, []⟩
    grade := ⟨sentinel, true, false, []⟩
    volume := ⟨sentinel, false, false, []⟩ }

def cSt8 : TState :=
  { menus := cMenus8, resources := [], size_total := 0, count_total := 0,
    statusSet := false, downloadEnabled := false, errorReported := false }

/-- A menu state in the special-education intellectual-disability
information-technology branch. -/
def cMenus5 : Menus :=
  { material := ⟨"特殊教育", true, true, []⟩
    subject := ⟨"信息技术", true, true, []⟩
    provider := ⟨sentinel, false, false, []⟩
    category := ⟨"培智学校", true, true, []⟩
    stage := ⟨sentinel, false, false, []⟩
    grade := ⟨sentinel, true, false, []⟩
    volume := ⟨sentinel, false, false, []⟩ }

/-! ## Helper lemmas about the dict operations -/

/-- Dict assignment semantics for lookup: the assigned key now maps to the
new value and other keys are untouched. -/
theorem alget_upsert (a : List (String × Node)) (k : String) (v : Node)
    (key : String) :
    alget (upsert a k v) key = if k = key then some v else alget a key := by
  induction a with
  | nil => rfl
  | cons q rest ih =>
    obtain ⟨k', v'⟩ := q
    by_cases hq : k' = k
    · subst hq
      by_cases hk : k' = key
      · simp [upsert, alget, hk]
      · simp [upsert, alget, hk]
    · by_cases hk : k' = key
      · subst hk
        have hkk : ¬k = k' := fun e => hq e.symm
        simp [upsert, alget, hq, hkk]
      · simp [upsert, alget, hq, hk, ih]

theorem mem_upsert {p : String × Node} {a : List (String × Node)}
    {k : String} {v : Node} (h : p ∈ upsert a k v) : p ∈ a ∨ p = (k, v) := by
  induction a with
  | nil => simp [upsert] at h; exact Or.inr h
  | cons q rest ih =>
    obtain ⟨k', v'⟩ := q
    by_cases hq : k' = k
    · simp only [upsert, if_pos hq] at h
      rcases List.mem_cons.mp h with h | h
      · exact Or.inr h
      · exact Or.inl (List.mem_cons_of_mem _ h)
    · simp only [upsert, if_neg hq] at h
      rcases List.mem_cons.mp h with h | h
      · exact Or.inl (h ▸ List.mem_cons_self _ _)
      · rcases ih h with h | h
        · exact Or.inl (List.mem_cons_of_mem _ h)
        · exact Or.inr h

theorem alget_updAll (cs : List (String × Node)) (a : List (String × Node))
    (key : String) :
    alget (updAll a cs) key =
      match lastAssoc cs key with
      | some w => some w
      | none => alget a key := by
  induction cs generalizing a with
  | nil => rfl
  | cons q rest ih =>
    obtain ⟨k, v⟩ := q
    show alget (updAll (upsert a k v) rest) key = _
    rw [ih]
    cases h : lastAssoc rest key with
    | some w => simp [lastAssoc, h]
    | none =>
      simp only [lastAssoc, h, alget_upsert]
      by_cases hk : k = key
      · simp [hk]
      · simp [hk]

theorem lastAssoc_append (A B : List (String × Node)) (key : String) :
    lastAssoc (A ++ B) key =
      match lastAssoc B key with
      | some w => some w
      | none => lastAssoc A key := by
  induction A with
  | nil => cases h : lastAssoc B key <;> simp [lastAssoc, h]
  | cons q rest ih =>
    obtain ⟨k, v⟩ := q
    show (match lastAssoc (rest ++ B) key with
          | some w => some w
          | none => if k = key then some v else none) = _
    rw [ih]
    cases h : lastAssoc B key <;> cases h2 : lastAssoc rest key <;>
      simp [lastAssoc, h2]

theorem alget_mem_keys {l : List (String × Node)} {key : String} {w : Node}
    (h : alget l key = some w) : key ∈ keysOf l := by
  induction l with
  | nil => simp [alget] at h
  | cons q rest ih =>
    obtain ⟨k, v⟩ := q
    by_cases hk : k = key
    · simp [keysOf, hk]
    · simp only [alget, if_neg hk] at h
      simp only [keysOf, List.map_cons, List.mem_cons]
      exact Or.inr (ih h)

theorem lastAssoc_of_nodup {l : List (String × Node)} (key : String)
    (hnd : (keysOf l).Nodup) : lastAssoc l key = alget l key := by
  induction l with
  | nil => rfl
  | cons q rest ih =>
    obtain ⟨k, v⟩ := q
    simp only [keysOf, List.map_cons, List.nodup_cons] at hnd
    have ihr := ih hnd.2
    cases h : alget rest key with
    | some w =>
      have hkey : key ∈ keysOf rest := alget_mem_keys h
      have hk : k ≠ key := fun e => hnd.1 (e ▸ hkey)
      simp only [lastAssoc, ihr, h, alget, if_neg hk]
    | none => simp only [lastAssoc, ihr, h, alget]

theorem mem_keysOf_upsert {a : List (String × Node)} {k key : String}
    {v : Node} (h : key ∈ keysOf (upsert a k v)) : key ∈ keysOf a ∨ key = k := by
  obtain ⟨p, hp, hpk⟩ := List.mem_map.mp h
  rcases mem_upsert hp with h1 | h1
  · exact Or.inl (List.mem_map.mpr ⟨p, h1, hpk⟩)
  · right; rw [← hpk, h1]

theorem keysOf_upsert (a : List (String × Node)) (k : String) (v : Node)
    (hnd : (keysOf a).Nodup) : (keysOf (upsert a k v)).Nodup := by
  induction a with
  | nil => simp [upsert, keysOf]
  | cons q rest ih =>
    obtain ⟨k', v'⟩ := q
    simp only [keysOf, List.map_cons, List.nodup_cons] at hnd
    by_cases hq : k' = k
    · subst hq
      simpa [upsert, keysOf, List.nodup_cons] using hnd
    · have ihr := ih hnd.2
      have hk' : k' ∉ keysOf (upsert rest k v) := by
        intro hmem
        rcases mem_keysOf_upsert hmem with h | h
        · exact hnd.1 (by simpa [keysOf] using h)
        · exact hq h
      have hrw : keysOf (upsert ((k', v') :: rest) k v) =
          k' :: keysOf (upsert rest k v) := by
        simp [upsert, hq, keysOf]
      rw [hrw]
      exact List.nodup_cons.mpr ⟨hk', ihr⟩

theorem keysOf_updAll (cs a : List (String × Node))
    (hnd : (keysOf a).Nodup) : (keysOf (updAll a cs)).Nodup := by
  induction cs generalizing a with
  | nil => exact hnd
  | cons q rest ih =>
    obtain ⟨k, v⟩ := q
    exact ih (upsert a k v) (keysOf_upsert a k v hnd)

/-- Correctness of the flattening loop: on a subtree without None children
values it succeeds, keeps the parsed dict keys duplicate-free, and maps
every key to the last descendant leaf carrying it, falling back to the
accumulated dict. -/
theorem parse_go_spec (entries acc : List (String × Node))
    (hnn : noNullChildren entries = true) (hnd : (keysOf acc).Nodup) :
    ∃ out, parseResourceGo entries acc = .ok out ∧ (keysOf out).Nodup ∧
      ∀ key, alget out key =
        match lastAssoc (collectLeaves entries) key with
        | some w => some w
        | none => alget acc key := by
  induction entries, acc using parseResourceGo.induct with
  | case1 acc =>
    exact ⟨acc, by simp [parseResourceGo], hnd,
      fun key => by simp [collectLeaves, lastAssoc]⟩
  | case2 fst rest acc tn i cp ch ih =>
    simp only [noNullChildren] at hnn
    obtain ⟨out, hout, hndo, hget⟩ :=
      ih hnn (keysOf_upsert acc i (Node.mk tn (some i) cp ch) hnd)
    refine ⟨out, by simpa [parseResourceGo] using hout, hndo, fun key => ?_⟩
    rw [hget key]
    simp only [collectLeaves]
    cases h : lastAssoc (collectLeaves rest) key with
    | some w => simp [lastAssoc, h]
    | none =>
      simp only [lastAssoc, h, alget_upsert]
      by_cases hk : i = key <;> simp [hk]
  | case3 fst rest acc tn cp m e herr ihm =>
    simp only [noNullChildren, Bool.and_eq_true] at hnn
    obtain ⟨out, hout, _⟩ := ihm hnn.1 (by simp [keysOf])
    rw [hout] at herr
    exact absurd herr (by simp)
  | case4 fst rest acc tn cp m cs hok ihm ihr =>
    simp only [noNullChildren, Bool.and_eq_true] at hnn
    obtain ⟨outm, houtm, hndm, hgetm⟩ := ihm hnn.1 (by simp [keysOf])
    have hcs : outm = cs := by
      rw [hok] at houtm
      injection houtm with h
      exact h.symm
    rw [hcs] at hndm hgetm
    obtain ⟨out, hout, hndo, hget⟩ := ihr hnn.2 (keysOf_updAll cs acc hnd)
    refine ⟨out, by simpa [parseResourceGo, hok] using hout, hndo, fun key => ?_⟩
    rw [hget key]
    simp only [collectLeaves]
    rw [lastAssoc_append]
    have hlc : lastAssoc cs key =
        match lastAssoc (collectLeaves m) key with
        | some w => some w
        | none => none := by
      rw [lastAssoc_of_nodup key hndm, hgetm key]
      cases h : lastAssoc (collectLeaves m) key <;> simp [alget]
    cases h1 : lastAssoc (collectLeaves rest) key with
    | some w => simp [alget_updAll, h1]
    | none =>
      simp only [alget_updAll, hlc]
      cases h2 : lastAssoc (collectLeaves m) key <;> simp [h2]
  | case5 fst rest acc tn cp =>
    simp [noNullChildren] at hnn
  | case6 fst rest acc tn cp ih =>
    simp only [noNullChildren] at hnn
    obtain ⟨out, hout, hndo, hget⟩ := ih hnn hnd
    exact ⟨out, by simpa [parseResourceGo] using hout, hndo, fun key => by
      rw [hget key]; simp only [collectLeaves]⟩

/-- Every entry produced by the inner loop of parse_material comes from the
accumulator or from one of the processed children. -/
theorem mem_pmChildren {p : String × Node} :
    ∀ (cs : List HChild) (acc : List (String × Node)), p ∈ pmChildren cs acc →
      p ∈ acc ∨ ∃ c ∈ cs,
        p = (c.tag_id, Node.mk (some c.tag_name) none none
              (childrenOfOpt (parse_material c.hierarchies)))
  | [], acc, h => Or.inl (by simpa [pmChildren] using h)
  | .mk tid tname hs :: rest, acc, h => by
    have h' := mem_pmChildren rest _ (by simpa [pmChildren] using h)
    rcases h' with h' | ⟨c, hc, hp⟩
    · rcases mem_upsert h' with h2 | h2
      · exact Or.inl h2
      · refine Or.inr ⟨.mk tid tname hs, List.mem_cons_self _ _, ?_⟩
        simpa [HChild.tag_id, HChild.tag_name, HChild.hierarchies] using h2
    · exact Or.inr ⟨c, List.mem_cons_of_mem _ hc, hp⟩

/-- Every entry produced by the outer loop of parse_material comes from the
accumulator or from a child of one of the hierarchy elements. -/
theorem mem_pmHiers {p : String × Node} :
    ∀ (ms : List Hier) (acc : List (String × Node)), p ∈ pmHiers ms acc →
      p ∈ acc ∨ ∃ m ∈ ms, ∃ c ∈ m.children,
        p = (c.tag_id, Node.mk (some c.tag_name) none none
              (childrenOfOpt (parse_material c.hierarchies)))
  | [], acc, h => Or.inl (by simpa [pmHiers] using h)
  | .mk cs :: rest, acc, h => by
    have h' := mem_pmHiers rest _ (by simpa [pmHiers] using h)
    rcases h' with h' | ⟨m, hm, hc⟩
    · rcases mem_pmChildren cs acc h' with h2 | ⟨c, hc, hp⟩
      · exact Or.inl h2
      · exact Or.inr ⟨.mk cs, List.mem_cons_self _ _, c,
          by simpa [Hier.children] using hc, hp⟩
    · exact Or.inr ⟨m, List.mem_cons_of_mem _ hm, hc⟩

/-- The value lastAssoc returns comes from an entry of the list carrying the
looked-up key. -/
theorem lastAssoc_some_mem {k : String} {w : Node} :
    ∀ {l : List (String × Node)}, lastAssoc l k = some w → (k, w) ∈ l
  | [], h => by simp [lastAssoc] at h
  | (k', v') :: rest, h => by
    cases hrest : lastAssoc rest k with
    | some u =>
      simp only [lastAssoc, hrest] at h
      injection h with h1
      subst h1
      exact List.mem_cons_of_mem _ (lastAssoc_some_mem hrest)
    | none =>
      simp only [lastAssoc, hrest] at h
      by_cases hk : k' = k
      · rw [if_pos hk] at h
        injection h with h1
        subst h1
        subst hk
        exact List.mem_cons_self _ _
      · rw [if_neg hk] at h
        exact absurd h (by simp)

/-- A key occurring in the list is found by lastAssoc. -/
theorem lastAssoc_isSome_of_mem {k : String} {v : Node} :
    ∀ {l : List (String × Node)}, (k, v) ∈ l →
      (lastAssoc l k).isSome = true
  | [], h => by simp at h
  | (k', v') :: rest, h => by
    rcases List.mem_cons.mp h with h1 | h1
    · have hk : k = k' := congrArg Prod.fst h1
      cases hrest : lastAssoc rest k with
      | some u => simp [lastAssoc, hrest]
      | none => simp [lastAssoc, hrest, hk.symm]
    · have hs := lastAssoc_isSome_of_mem h1
      cases hrest : lastAssoc rest k with
      | some u => simp [lastAssoc, hrest]
      | none => rw [hrest] at hs; simp at hs

/-- Every child of every hierarchy element contributes its entry to the
payload's child-entry list. -/
theorem mem_childEntries {c : HChild} {m : Hier} :
    ∀ {ms : List Hier}, m ∈ ms → c ∈ m.children →
      childEntry c ∈ childEntries ms
  | [], h, _ => by simp at h
  | m0 :: rest, h, hc => by
    obtain ⟨cs⟩ := m0
    rcases List.mem_cons.mp h with h1 | h1
    · subst h1
      have hc2 : c ∈ cs := hc
      simp only [childEntries]
      exact List.mem_append_left _ (List.mem_map_of_mem _ hc2)
    · simp only [childEntries]
      exact List.mem_append_right _ (mem_childEntries h1 hc)

/-- Conversely, every entry of the child-entry list is the entry of some
child of some hierarchy element. -/
theorem childEntries_mem {p : String × Node} :
    ∀ {ms : List Hier}, p ∈ childEntries ms →
      ∃ m ∈ ms, ∃ c ∈ m.children, p = childEntry c
  | [], h => by simp [childEntries] at h
  | .mk cs :: rest, h => by
    simp only [childEntries] at h
    rcases List.mem_append.mp h with h1 | h1
    · obtain ⟨c, hc, hp⟩ := List.mem_map.mp h1
      exact ⟨.mk cs, List.mem_cons_self _ _, c, hc, hp.symm⟩
    · obtain ⟨m, hm, c, hc, hp⟩ := childEntries_mem h1
      exact ⟨m, List.mem_cons_of_mem _ hm, c, hc, hp⟩

/-- Lookup in the dict built by the inner loop of parse_material: the
last-written entry for the key wins, falling back to the accumulator. -/
theorem alget_pmChildren :
    ∀ (cs : List HChild) (acc : List (String × Node)) (key : String),
      alget (pmChildren cs acc) key =
        match lastAssoc (cs.map childEntry) key with
        | some w => some w
        | none => alget acc key
  | [], acc, key => by simp [pmChildren, lastAssoc]
  | .mk tid tname hs :: rest, acc, key => by
    simp only [pmChildren, List.map_cons]
    rw [alget_pmChildren rest _ key]
    cases h1 : lastAssoc (List.map childEntry rest) key with
    | some w =>
      simp [lastAssoc, h1, childEntry, HChild.tag_id, HChild.tag_name,
        HChild.hierarchies]
    | none =>
      simp only [lastAssoc, h1, alget_upsert, childEntry, HChild.tag_id,
        HChild.tag_name, HChild.hierarchies]
      by_cases hk : tid = key
      · simp [hk]
      · simp [hk]

/-- Lookup in the dict built by the outer loop of parse_material. -/
theorem alget_pmHiers :
    ∀ (ms : List Hier) (acc : List (String × Node)) (key : String),
      alget (pmHiers ms acc) key =
        match lastAssoc (childEntries ms) key with
        | some w => some w
        | none => alget acc key
  | [], acc, key => by simp [pmHiers, childEntries, lastAssoc]
  | .mk cs :: rest, acc, key => by
    simp only [pmHiers, childEntries]
    rw [alget_pmHiers rest _ key, alget_pmChildren cs acc key,
      lastAssoc_append]
    cases h1 : lastAssoc (childEntries rest) key <;>
      cases h2 : lastAssoc (List.map childEntry cs) key <;> simp

/-! ## Claim C2 -/

/-- C2 counterexample: for a child whose nested hierarchies list is empty,
parse_material stores Python None as the children value, not an empty
mapping; the claim that the children entry is an empty mapping when the node
has no nested hierarchies is false on the code. -/
theorem c2_counterexample :
    parse_material [Hier.mk [HChild.mk "t1" "n1" []]] =
      some [("t1", Node.mk (some "n1") none none ChildrenF.null)] ∧
    ChildrenF.null ≠ ChildrenF.dict [] := by
  constructor
  · simp [parse_material, pmHiers, pmChildren, upsert, childrenOfOpt]
  · intro h
    exact ChildrenF.noConfusion h

/-- C2 amended: parse_material returns None on an empty hierarchies payload;
otherwise it returns a mapping that contains each child's tag_id as a key,
holding a record of a tag_name and the recursive build of nested hierarchies
taken from the last child written under that tag_id (so from the child
itself when tag_ids do not collide), contains nothing else (every entry
comes from some child), and in general associates to every key exactly the
last-written child entry; a child's recursively built children value is None
(not an empty mapping) when its nested hierarchies are empty. -/
theorem c2_amended :
    parse_material [] = none ∧
    ∀ ms : List Hier, ms ≠ [] → ∃ entries,
      parse_material ms = some entries ∧
      (∀ p ∈ entries, ∃ m ∈ ms, ∃ c ∈ m.children,
        p = (c.tag_id, Node.mk (some c.tag_name) none none
              (childrenOfOpt (parse_material c.hierarchies)))) ∧
      (∀ m ∈ ms, ∀ c ∈ m.children, ∃ m' ∈ ms, ∃ c' ∈ m'.children,
        c'.tag_id = c.tag_id ∧
        alget entries c.tag_id =
          some (Node.mk (some c'.tag_name) none none
            (childrenOfOpt (parse_material c'.hierarchies)))) ∧
      ∀ key, alget entries key = lastAssoc (childEntries ms) key := by
  refine ⟨by simp [parse_material], ?_⟩
  intro ms hne
  match ms, hne with
  | m :: rest, _ =>
    have hkey : ∀ key, alget (pmHiers (m :: rest) []) key =
        lastAssoc (childEntries (m :: rest)) key := by
      intro key
      rw [alget_pmHiers]
      cases h : lastAssoc (childEntries (m :: rest)) key <;> simp [alget]
    refine ⟨pmHiers (m :: rest) [], by simp [parse_material], ?_, ?_, hkey⟩
    · intro p hp
      rcases mem_pmHiers _ _ hp with h | h
      · simp at h
      · exact h
    · intro mm hm c hc
      have hmem : (c.tag_id, Node.mk (some c.tag_name) none none
          (childrenOfOpt (parse_material c.hierarchies))) ∈
            childEntries (m :: rest) := mem_childEntries hm hc
      obtain ⟨w, hw⟩ : ∃ w,
          lastAssoc (childEntries (m :: rest)) c.tag_id = some w := by
        have hs := lastAssoc_isSome_of_mem hmem
        cases hlw : lastAssoc (childEntries (m :: rest)) c.tag_id with
        | none => rw [hlw] at hs; simp at hs
        | some w => exact ⟨w, rfl⟩
      obtain ⟨m', hm', c', hc', hp⟩ := childEntries_mem (lastAssoc_some_mem hw)
      simp only [childEntry] at hp
      injection hp with h1 h2
      refine ⟨m', hm', c', hc', h1.symm, ?_⟩
      rw [hkey c.tag_id, hw, h2]

/-- C2 witness: the amended statement applied to a concrete one-child
payload whose nested hierarchies are nonempty. -/
theorem c2_witness :
    ([Hier.mk [HChild.mk "t2" "n2" [Hier.mk []]]] : List Hier) ≠ [] ∧
    ∃ entries,
      parse_material [Hier.mk [HChild.mk "t2" "n2" [Hier.mk []]]] =
        some entries ∧
      (∀ p ∈ entries, ∃ m ∈ [Hier.mk [HChild.mk "t2" "n2" [Hier.mk []]]],
        ∃ c ∈ m.children,
          p = (c.tag_id, Node.mk (some c.tag_name) none none
                (childrenOfOpt (parse_material c.hierarchies)))) ∧
      (∀ m ∈ [Hier.mk [HChild.mk "t2" "n2" [Hier.mk []]]],
        ∀ c ∈ m.children,
        ∃ m' ∈ [Hier.mk [HChild.mk "t2" "n2" [Hier.mk []]]],
        ∃ c' ∈ m'.children,
          c'.tag_id = c.tag_id ∧
          alget entries c.tag_id =
            some (Node.mk (some c'.tag_name) none none
              (childrenOfOpt (parse_material c'.hierarchies)))) ∧
      ∀ key, alget entries key =
        lastAssoc (childEntries [Hier.mk [HChild.mk "t2" "n2" [Hier.mk []]]])
          key :=
  ⟨by simp, c2_amended.2 _ (by simp)⟩

/-! ## Claim C3 -/

/-- C3 counterexample: two descendant leaves sharing the id x; the flat
mapping keeps the one seen last, not the one seen first as the claim
states. -/
theorem c3_counterexample :
    parse_resource [("a", resDupA), ("b", resDupB)] = .ok [("x", resDupB)] ∧
    resDupA ≠ resDupB := by
  constructor
  · simp [parse_resource, parseResourceGo, resDupA, resDupB, upsert]
  · intro h
    rw [resDupA, resDupB] at h
    injection h with h1 h2 h3 h4
    exact absurd h3 (by simp)

/-- C3 amended: on a children mapping free of None children values, the
flattener succeeds (in particular it does not raise on id collisions) and
returns a flat mapping associating to every id exactly the last-seen
descendant leaf carrying it. -/
theorem c3_amended : ∀ entries : List (String × Node),
    noNullChildren entries = true →
    ∃ out, parse_resource entries = .ok out ∧
      ∀ key, alget out key = lastAssoc (collectLeaves entries) key := by
  intro entries hnn
  obtain ⟨out, hout, _, hget⟩ := parse_go_spec entries [] hnn (by simp [keysOf])
  refine ⟨out, by simpa [parse_resource] using hout, fun key => ?_⟩
  rw [hget key]
  cases h : lastAssoc (collectLeaves entries) key <;> simp [alget]

/-- C3 witness: the amended statement applied to the concrete colliding
pair. -/
theorem c3_witness :
    noNullChildren [("a", resDupA), ("b", resDupB)] = true ∧
    ∃ out, parse_resource [("a", resDupA), ("b", resDupB)] = .ok out ∧
      ∀ key, alget out key =
        lastAssoc (collectLeaves [("a", resDupA), ("b", resDupB)]) key :=
  ⟨by simp [noNullChildren, resDupA, resDupB],
   c3_amended _ (by simp [noNullChildren, resDupA, resDupB])⟩

/-! ## Claim C9 -/

/-- C9: the programmatic reset of a downstream field removes the write
trace, writes the default value, and restores the trace: it fires the
change handler zero times, every variable ends with its trace restored, and
a write to a live (traced) variable does fire the handler once. -/
theorem c9_trace_suppression :
    (∀ l : List (TracedVar × String),
      (resetVarsTraced l).2 = 0 ∧
      ∀ v ∈ (resetVarsTraced l).1, v.traced = true) ∧
    (∀ (v : TracedVar) (s : String), v.traced = true → (varSet v s).2 = 1) := by
  constructor
  · intro l
    induction l with
    | nil => exact ⟨rfl, by simp [resetVarsTraced]⟩
    | cons p rest ih =>
      obtain ⟨v, d⟩ := p
      constructor
      · simp [resetVarsTraced, resetVarTraced, varSet, ih.1]
      · intro w hw
        simp only [resetVarsTraced, resetVarTraced, varSet, List.mem_cons] at hw
        rcases hw with hw | hw
        · rw [hw]
        · exact ih.2 w hw
  · intro v s hv
    simp [varSet, hv]

/-- C9 witness: a concrete reset of one traced variable fires no handler,
while a plain write to it fires once. -/
theorem c9_witness :
    (resetVarsTraced [(⟨"a", true⟩, sentinel)]).2 = 0 ∧
    (⟨"a", true⟩ : TracedVar).traced = true ∧
    (varSet ⟨"a", true⟩ "b").2 = 1 :=
  ⟨(c9_trace_suppression.1 _).1, rfl, c9_trace_suppression.2 _ "b" rfl⟩

/-! ## Helper lemmas about the menu state -/

theorem Menus.get_set_self (m : Menus) (k : FieldK) (f : FieldState) :
    (m.set k f).get k = f := by
  cases k <;> rfl

theorem Menus.get_set_ne (m : Menus) (k g : FieldK) (f : FieldState)
    (h : g ≠ k) : (m.set k f).get g = m.get g := by
  cases k <;> cases g <;> first | rfl | exact absurd rfl h

theorem applyVis_get_self (m : Menus) (k : FieldK) (b : Bool) :
    (applyVis m k b).get k =
      if b then { m.get k with visible := true }
      else resetF { m.get k with visible := false } := by
  unfold applyVis
  split <;> rw [Menus.get_set_self]

theorem applyVis_get_ne (m : Menus) (k g : FieldK) (b : Bool) (h : g ≠ k) :
    (applyVis m k b).get g = m.get g := by
  unfold applyVis
  split <;> exact Menus.get_set_ne m k g _ h

theorem applyVis_vis_self (m : Menus) (k : FieldK) (b : Bool) :
    ((applyVis m k b).get k).visible = b := by
  rw [applyVis_get_self]
  cases b <;> simp [resetF]

/-! ## Claim C5 -/

/-- C5: the volume field is visible after the recompute exactly when the
changed widget is not the material menu and the values read by the rules are
top-category 特殊教育, special-category 培智学校 and subject 信息技术; and in
that combination the grade field is hidden. -/
theorem c5_volume_grade : ∀ (k : FieldK) (m : Menus),
    (((update_menu_state k m).get .volume).visible = true ↔
      (k ≠ FieldK.material ∧ m.material.value = "特殊教育" ∧
        m.category.value = "培智学校" ∧ m.subject.value = "信息技术")) ∧
    ((k ≠ FieldK.material ∧ m.material.value = "特殊教育" ∧
        m.category.value = "培智学校" ∧ m.subject.value = "信息技术") →
      ((update_menu_state k m).get .grade).visible = false) := by
  intro k m
  by_cases hk : k = FieldK.material
  · subst hk
    constructor
    · simp only [update_menu_state, if_pos rfl]
      rw [applyVis_vis_self]
      simp
    · rintro ⟨h, _⟩
      exact absurd rfl h
  · constructor
    · simp only [update_menu_state, if_neg hk]
      rw [applyVis_vis_self]
      simp [hk, and_assoc]
    · rintro ⟨_, h1, h2, h3⟩
      simp only [update_menu_state, if_neg hk]
      rw [applyVis_get_ne _ _ _ _ (show FieldK.grade ≠ FieldK.volume by decide),
        applyVis_vis_self]
      simp [h1, h2, h3]

/-- C5 witness: the triple satisfied concretely, with the changed widget the
subject menu. -/
theorem c5_witness :
    (FieldK.subject ≠ FieldK.material ∧ cMenus5.material.value = "特殊教育" ∧
      cMenus5.category.value = "培智学校" ∧
      cMenus5.subject.value = "信息技术") ∧
    ((update_menu_state .subject cMenus5).get .volume).visible = true ∧
    ((update_menu_state .subject cMenus5).get .grade).visible = false := by
  have htriple : FieldK.subject ≠ FieldK.material ∧
      cMenus5.material.value = "特殊教育" ∧
      cMenus5.category.value = "培智学校" ∧
      cMenus5.subject.value = "信息技术" := ⟨by decide, rfl, rfl, rfl⟩
  exact ⟨htriple, (c5_volume_grade .subject cMenus5).1.mpr htriple,
    (c5_volume_grade .subject cMenus5).2 htriple⟩

/-! ## Claim C10 -/

/-- When the changed widget is the material menu, the recomputed visibility
of every field depends only on the material field and the input visibility
flags, not on the values held by the subject and category fields. -/
theorem update_material_visible_congr (m m' : Menus)
    (hmat : m.material = m'.material)
    (hvis : ∀ g : FieldK, (m.get g).visible = (m'.get g).visible) :
    ∀ g : FieldK, ((update_menu_state .material m).get g).visible =
      ((update_menu_state .material m').get g).visible := by
  have hmv : m.material.value = m'.material.value := by rw [hmat]
  intro g
  cases g <;>
    simp [update_menu_state, applyVis_get_ne, applyVis_vis_self, hmv, hvis]

/-- C10: two material-menu transitions that differ only in the stale values
still held by the subject and category fields produce the same visible or
hidden configuration for every field. -/
theorem c10_stale_invariance : ∀ (m : Menus) (s1 c1 s2 c2 : String),
    visConfig (update_menu_state .material
      { m with subject := { m.subject with value := s1 },
               category := { m.category with value := c1 } }) =
    visConfig (update_menu_state .material
      { m with subject := { m.subject with value := s2 },
               category := { m.category with value := c2 } }) := by
  intro m s1 c1 s2 c2
  have h := update_material_visible_congr
    { m with subject := { m.subject with value := s1 },
             category := { m.category with value := c1 } }
    { m with subject := { m.subject with value := s2 },
             category := { m.category with value := c2 } }
    rfl (by intro g; cases g <;> rfl)
  simp only [visConfig, fieldOrder, List.map]
  rw [h .material, h .subject, h .provider, h .category, h .stage, h .grade,
    h .volume]

/-! ## Claim C1 -/

/-- C1 counterexample: in a batch of two records where only the first has a
top tag absent from the Phase-A tree, processing does not skip the failing
record and continue: the KeyError raised by materials[path_parts[1]] is not
caught by the per-shard handler (which only catches RequestException) and
aborts the whole batch. -/
theorem c1_counterexample :
    alget [("T", topNodeGood)] "U" = none ∧
    fetchBatchRecords (some [("T", topNodeGood)]) [recBadTop, recGood] =
      .error .keyError := ⟨rfl, rfl⟩

/-- C1 amended: a record with a missing or empty tag path is skipped and
processing continues; a record whose segment after the top tag is not among
the top node's children is skipped and processing continues; but a record
whose top tag is absent from the Phase-A tree raises KeyError, which aborts
the whole batch; likewise a tag path with too few segments raises IndexError
and aborts the batch — at materials[path_parts[1]] when the path splits into
a single segment, and at res_paths[0] when it splits into exactly two
segments with a recognized top tag. -/
theorem c1_amended :
    (∀ (mats : Option (List (String × Node))) (r : RawRes)
       (rest : List RawRes),
      (r.tag_paths = [] ∨ ∃ ps, r.tag_paths = "" :: ps) →
      fetchBatchRecords mats (r :: rest) = fetchBatchRecords mats rest) ∧
    (∀ (entries : List (String × Node)) (r : RawRes) (rest : List RawRes)
       (p0 : String) (ps : List String) (seg1 : String) (top : Node)
       (r0 : String) (rs : List String),
      r.tag_paths = p0 :: ps → p0 ≠ "" →
      (pySplitSlash p0)[1]? = some seg1 →
      alget entries seg1 = some top →
      (pySplitSlash p0).drop 2 = r0 :: rs →
      memberNextSeg top r0 = .ok false →
      fetchBatchRecords (some entries) (r :: rest) =
        fetchBatchRecords (some entries) rest) ∧
    (∀ (entries : List (String × Node)) (r : RawRes) (rest : List RawRes)
       (p0 : String) (ps : List String) (seg1 : String),
      r.tag_paths = p0 :: ps → p0 ≠ "" →
      (pySplitSlash p0)[1]? = some seg1 →
      alget entries seg1 = none →
      fetchBatchRecords (some entries) (r :: rest) = .error .keyError) ∧
    (∀ (entries : List (String × Node)) (r : RawRes) (rest : List RawRes)
       (p0 : String) (ps : List String),
      r.tag_paths = p0 :: ps → p0 ≠ "" →
      (pySplitSlash p0)[1]? = none →
      fetchBatchRecords (some entries) (r :: rest) = .error .indexError) ∧
    (∀ (entries : List (String × Node)) (r : RawRes) (rest : List RawRes)
       (p0 : String) (ps : List String) (seg1 : String) (top : Node),
      r.tag_paths = p0 :: ps → p0 ≠ "" →
      (pySplitSlash p0)[1]? = some seg1 →
      alget entries seg1 = some top →
      (pySplitSlash p0).drop 2 = [] →
      fetchBatchRecords (some entries) (r :: rest) = .error .indexError) := by
  refine ⟨?_, ?_, ?_, ?_, ?_⟩
  · intro mats r rest h
    rcases h with h | ⟨ps, h⟩
    · simp [fetchBatchRecords, processRecord, h]
    · simp [fetchBatchRecords, processRecord, h]
  · intro entries r rest p0 ps seg1 top r0 rs htp hne hseg halget hdrop hmem
    simp [fetchBatchRecords, processRecord, htp, hne, hseg, halget, hdrop, hmem]
  · intro entries r rest p0 ps seg1 htp hne hseg halget
    simp [fetchBatchRecords, processRecord, htp, hne, hseg, halget]
  · intro entries r rest p0 ps htp hne hseg
    simp [fetchBatchRecords, processRecord, htp, hne, hseg]
  · intro entries r rest p0 ps seg1 top htp hne hseg halget hdrop
    simp [fetchBatchRecords, processRecord, htp, hne, hseg, halget, hdrop]

/-- C1 witness: the amended statement applied to five concrete records: an
empty-path record is skipped, an unknown-next-segment record is skipped, an
absent-top-tag record aborts the batch with KeyError, and one- and
two-segment paths abort the batch with IndexError. -/
theorem c1_witness :
    fetchBatchRecords (some [("T", topNodeGood)])
        [{ tag_paths := [], rid := none, customProperties := none }] =
      fetchBatchRecords (some [("T", topNodeGood)]) [] ∧
    fetchBatchRecords (some [("T", topNodeGood)]) [recBadSeg] =
      fetchBatchRecords (some [("T", topNodeGood)]) [] ∧
    fetchBatchRecords (some [("T", topNodeGood)]) [recBadTop, recGood] =
      .error .keyError ∧
    fetchBatchRecords (some [("T", topNodeGood)])
        [{ tag_paths := ["专题"], rid := none, customProperties := none },
         recGood] = .error .indexError ∧
    fetchBatchRecords (some [("T", topNodeGood)])
        [{ tag_paths := ["专题/T"], rid := none, customProperties := none },
         recGood] = .error .indexError := by
  refine ⟨?_, ?_, ?_, ?_, ?_⟩
  · exact c1_amended.1 _ _ [] (Or.inl rfl)
  · exact c1_amended.2.1 [("T", topNodeGood)] recBadSeg [] "专题/T/X" []
      "T" topNodeGood "X" [] rfl (by decide) rfl rfl rfl rfl
  · exact c1_amended.2.2.1 [("T", topNodeGood)] recBadTop [recGood] "专题/U/A"
      [] "U" rfl (by decide) rfl rfl
  · exact c1_amended.2.2.2.1 [("T", topNodeGood)]
      { tag_paths := ["专题"], rid := none, customProperties := none }
      [recGood] "专题" [] rfl (by decide) rfl
  · exact c1_amended.2.2.2.2 [("T", topNodeGood)]
      { tag_paths := ["专题/T"], rid := none, customProperties := none }
      [recGood] "专题/T" [] "T" topNodeGood rfl (by decide) rfl rfl rfl

/-! ## Claim C4 -/

/-- C4 counterexample: a record whose top tag is recognized and whose first
remaining segment passes the guard, but whose walk reaches a node holding a
None children value while segments remain: the splice raises AttributeError
instead of staying at the current node. -/
theorem c4_counterexample :
    alget [("T", topNodeNull)] "T" = some topNodeNull ∧
    memberNextSeg topNodeNull "A" = .ok true ∧
    processRecord (some [("T", topNodeNull)]) recDeep =
      .error .attributeError := ⟨rfl, rfl, rfl⟩

/-- C4 amended: whenever every node reached while segments remain carries a
dict children value and the final node has a children key (possibly None),
the splice walk descends into children[segment] when present, stays at the
current node otherwise, and at the final node ensures a children mapping
(defaulting to empty) and inserts the record under its id, exactly as the
specification-side spliceSpec describes. -/
theorem c4_amended :
    ∀ (paths : List String) (n : Node) (res : Node) (i : String),
      walkOK n paths = true →
      walkInsert n paths res (some i) = .ok (spliceSpec n paths res i) := by
  intro paths
  induction paths with
  | nil =>
    intro n res i h
    cases n with
    | mk tn ri cp ch =>
      cases ch with
      | absent => simp [walkOK, Node.children] at h
      | null => simp [walkInsert, spliceSpec]
      | dict m => simp [walkInsert, spliceSpec]
  | cons p rest ih =>
    intro n res i h
    cases n with
    | mk tn ri cp ch =>
      cases ch with
      | absent => simp [walkOK, Node.children] at h
      | null => simp [walkOK, Node.children] at h
      | dict m =>
        simp only [walkOK, Node.children] at h
        cases halget : alget m p with
        | some c =>
          rw [halget] at h
          simp only [walkInsert, spliceSpec, halget]
          rw [ih c res i h]
        | none =>
          rw [halget] at h
          simp only [walkInsert, spliceSpec, halget]
          exact ih _ res i h

/-- C4 witness: the amended statement applied to a concrete record spliced
below the good top node. -/
theorem c4_witness :
    walkOK topNodeGood ["A"] = true ∧
    walkInsert topNodeGood ["A"] recGood.toNode (some "rg") =
      .ok (spliceSpec topNodeGood ["A"] recGood.toNode "rg") := by
  have h : walkOK topNodeGood ["A"] = true := by
    simp [walkOK, topNodeGood, Node.children, alget]
  exact ⟨h, c4_amended ["A"] topNodeGood recGood.toNode "rg" h⟩

/-! ## Ordering facts about the visible-widget list -/

/-- Every field occurs in the cascade order. -/
theorem mem_fieldOrder (f : FieldK) : f ∈ fieldOrder := by
  cases f <;> simp [fieldOrder]

/-- The cascade index is the position in the cascade order. -/
theorem fieldIdx_eq_indexOf (f : FieldK) :
    fieldIdx f = fieldOrder.indexOf f := by
  cases f <;> rfl

theorem fieldOrder_nodup : fieldOrder.Nodup := by
  simp [fieldOrder]

/-- An element placed after another in a list lies in the drop past that
other element's position. -/
theorem mem_drop_indexOf {α : Type} [DecidableEq α] :
    ∀ (l : List α) (k g : α), g ∈ l →
      l.indexOf k < l.indexOf g → g ∈ l.drop (l.indexOf k + 1)
  | [], _, g, hg, _ => by simp at hg
  | a :: rest, k, g, hg, hlt => by
    by_cases hak : a = k
    · subst hak
      rw [List.indexOf_cons_self] at hlt ⊢
      have hga : g ≠ a := by
        intro e
        subst e
        rw [List.indexOf_cons_self] at hlt
        omega
      rw [List.drop_succ_cons, List.drop_zero]
      rcases List.mem_cons.mp hg with h | h
      · exact absurd h hga
      · exact h
    · have hidxk : (a :: rest).indexOf k = rest.indexOf k + 1 :=
        List.indexOf_cons_ne _ hak
      by_cases hag : a = g
      · subst hag
        rw [List.indexOf_cons_self, hidxk] at hlt
        omega
      · have hidxg : (a :: rest).indexOf g = rest.indexOf g + 1 :=
          List.indexOf_cons_ne _ hag
        rw [hidxk, hidxg] at hlt
        have hg2 : g ∈ rest := by
          rcases List.mem_cons.mp hg with h | h
          · exact absurd h.symm hag
          · exact h
        rw [hidxk, List.drop_succ_cons]
        exact mem_drop_indexOf rest k g hg2 (by omega)

/-- Filtering a duplicate-free list preserves the relative order of two kept
elements. -/
theorem filter_indexOf_lt_iff {α : Type} [DecidableEq α] :
    ∀ (l : List α) (p : α → Bool), l.Nodup → ∀ (k g : α),
      k ∈ l.filter p → g ∈ l.filter p →
      (l.indexOf k < l.indexOf g ↔
        (l.filter p).indexOf k < (l.filter p).indexOf g)
  | [], _, _, k, _, hk, _ => by simp at hk
  | a :: rest, p, hnd, k, g, hk, hg => by
    have hnd2 := List.nodup_cons.mp hnd
    by_cases hpa : p a = true
    · have hfil : (a :: rest).filter p = a :: rest.filter p := by
        simp [List.filter_cons, hpa]
      rw [hfil] at hk hg ⊢
      by_cases hak : a = k
      · subst hak
        by_cases hag : a = g
        · subst hag
          simp
        · rw [List.indexOf_cons_self, List.indexOf_cons_self,
            List.indexOf_cons_ne _ hag, List.indexOf_cons_ne _ hag]
          simp
      · by_cases hag : a = g
        · subst hag
          rw [List.indexOf_cons_self, List.indexOf_cons_self,
            List.indexOf_cons_ne _ hak, List.indexOf_cons_ne _ hak]
          simp
        · have hkr : k ∈ rest.filter p := by
            rcases List.mem_cons.mp hk with h | h
            · exact absurd h.symm hak
            · exact h
          have hgr : g ∈ rest.filter p := by
            rcases List.mem_cons.mp hg with h | h
            · exact absurd h.symm hag
            · exact h
          rw [List.indexOf_cons_ne _ hak, List.indexOf_cons_ne _ hag,
            List.indexOf_cons_ne _ hak, List.indexOf_cons_ne _ hag]
          have := filter_indexOf_lt_iff rest p hnd2.2 k g hkr hgr
          omega
    · have hfil : (a :: rest).filter p = rest.filter p := by
        simp [List.filter_cons, hpa]
      rw [hfil] at hk hg ⊢
      have hka : a ≠ k := by
        intro e
        subst e
        exact hnd2.1 (List.mem_of_mem_filter hk)
      have hga : a ≠ g := by
        intro e
        subst e
        exact hnd2.1 (List.mem_of_mem_filter hg)
      rw [List.indexOf_cons_ne _ hka, List.indexOf_cons_ne _ hga]
      have := filter_indexOf_lt_iff rest p hnd2.2 k g hk hg
      omega

/-- The element found at a position lies in the drop from that position. -/
theorem get?_some_mem_drop {α : Type} : ∀ (l : List α) (j : Nat) (x : α),
    l.get? j = some x → x ∈ l.drop j
  | [], j, x, h => by simp at h
  | a :: _, 0, x, h => by
    simp only [List.get?_cons_zero] at h
    injection h with h
    subst h
    simp
  | a :: rest, j + 1, x, h => by
    simp only [List.get?_cons_succ] at h
    rw [List.drop_succ_cons]
    exact get?_some_mem_drop rest j x h

/-- In a duplicate-free list, the position of the element found at a
position is that position. -/
theorem nodup_get?_indexOf {α : Type} [DecidableEq α] :
    ∀ (l : List α), l.Nodup → ∀ (j : Nat) (x : α),
      l.get? j = some x → l.indexOf x = j
  | [], _, j, x, h => by simp at h
  | a :: _, _, 0, x, h => by
    simp only [List.get?_cons_zero] at h
    injection h with h
    subst h
    exact List.indexOf_cons_self _ _
  | a :: rest, hnd, j + 1, x, h => by
    simp only [List.get?_cons_succ] at h
    have hnd2 := List.nodup_cons.mp hnd
    have hx : x ∈ rest :=
      List.drop_subset _ _ (get?_some_mem_drop rest j x h)
    have hax : a ≠ x := fun e => hnd2.1 (e ▸ hx)
    rw [List.indexOf_cons_ne _ hax, nodup_get?_indexOf rest hnd2.2 j x h]

/-- A visible field strictly after the changed field in cascade order sits
in the part of the visible-widget list that gets reset. -/
theorem visible_after_in_drop : ∀ b0 b1 b2 b3 b4 b5 b6 : Bool,
    ∀ k g : FieldK,
    boolsOf b0 b1 b2 b3 b4 b5 b6 k = true →
    boolsOf b0 b1 b2 b3 b4 b5 b6 g = true → fieldIdx k < fieldIdx g →
    g ∈ (fieldOrder.filter (boolsOf b0 b1 b2 b3 b4 b5 b6)).drop
      ((fieldOrder.filter (boolsOf b0 b1 b2 b3 b4 b5 b6)).indexOf k + 1) := by
  intro b0 b1 b2 b3 b4 b5 b6 k g hk hg hlt
  have hkf : k ∈ fieldOrder.filter (boolsOf b0 b1 b2 b3 b4 b5 b6) :=
    List.mem_filter.mpr ⟨mem_fieldOrder k, hk⟩
  have hgf : g ∈ fieldOrder.filter (boolsOf b0 b1 b2 b3 b4 b5 b6) :=
    List.mem_filter.mpr ⟨mem_fieldOrder g, hg⟩
  have hlt2 : fieldOrder.indexOf k < fieldOrder.indexOf g := by
    rw [← fieldIdx_eq_indexOf, ← fieldIdx_eq_indexOf]
    exact hlt
  exact mem_drop_indexOf _ k g hgf
    ((filter_indexOf_lt_iff fieldOrder _ fieldOrder_nodup k g hkf hgf).mp hlt2)

/-- The field populated after the reset, when it exists, lies in the reset
segment, is visible, sits after the changed field in cascade order, and no
visible field lies strictly between the two. -/
theorem next_visible_facts : ∀ b0 b1 b2 b3 b4 b5 b6 : Bool, ∀ k : FieldK,
    boolsOf b0 b1 b2 b3 b4 b5 b6 k = true →
    ∀ nk : FieldK,
      (fieldOrder.filter (boolsOf b0 b1 b2 b3 b4 b5 b6)).get?
          ((fieldOrder.filter (boolsOf b0 b1 b2 b3 b4 b5 b6)).indexOf k + 1) =
        some nk →
      nk ∈ (fieldOrder.filter (boolsOf b0 b1 b2 b3 b4 b5 b6)).drop
        ((fieldOrder.filter (boolsOf b0 b1 b2 b3 b4 b5 b6)).indexOf k + 1) ∧
      boolsOf b0 b1 b2 b3 b4 b5 b6 nk = true ∧
      fieldIdx k < fieldIdx nk ∧
      ∀ f : FieldK, boolsOf b0 b1 b2 b3 b4 b5 b6 f = true →
        fieldIdx k < fieldIdx f → fieldIdx f < fieldIdx nk → False := by
  intro b0 b1 b2 b3 b4 b5 b6 k hk nk hnk
  have hndf : (fieldOrder.filter (boolsOf b0 b1 b2 b3 b4 b5 b6)).Nodup :=
    List.Nodup.filter _ fieldOrder_nodup
  have hdrop := get?_some_mem_drop _ _ _ hnk
  have hnkmem : nk ∈ fieldOrder.filter (boolsOf b0 b1 b2 b3 b4 b5 b6) :=
    List.drop_subset _ _ hdrop
  have hkmem : k ∈ fieldOrder.filter (boolsOf b0 b1 b2 b3 b4 b5 b6) :=
    List.mem_filter.mpr ⟨mem_fieldOrder k, hk⟩
  have hidx := nodup_get?_indexOf _ hndf _ _ hnk
  refine ⟨hdrop, (List.mem_filter.mp hnkmem).2, ?_, ?_⟩
  · rw [fieldIdx_eq_indexOf, fieldIdx_eq_indexOf]
    exact (filter_indexOf_lt_iff fieldOrder _ fieldOrder_nodup k nk hkmem
      hnkmem).mpr (by omega)
  · intro f hf hkf hfnk
    have hfmem : f ∈ fieldOrder.filter (boolsOf b0 b1 b2 b3 b4 b5 b6) :=
      List.mem_filter.mpr ⟨mem_fieldOrder f, hf⟩
    have h1 := (filter_indexOf_lt_iff fieldOrder _ fieldOrder_nodup k f
      hkmem hfmem).mp (by
        rw [← fieldIdx_eq_indexOf, ← fieldIdx_eq_indexOf]
        exact hkf)
    have h2 := (filter_indexOf_lt_iff fieldOrder _ fieldOrder_nodup f nk
      hfmem hnkmem).mp (by
        rw [← fieldIdx_eq_indexOf, ← fieldIdx_eq_indexOf]
        exact hfnk)
    omega

/-- The visible-widget list is the filter of the cascade order by the
per-field visibility assignment. -/
theorem visibleKeys_eq_filter (m : Menus) :
    visibleKeys m = fieldOrder.filter
      (boolsOf m.material.visible m.subject.visible m.provider.visible
        m.category.visible m.stage.visible m.grade.visible m.volume.visible) := by
  unfold visibleKeys
  apply List.filter_congr
  intro k _
  cases k <;> rfl

/-- The reset fold leaves fields outside the list untouched. -/
theorem resetFold_get_not_mem : ∀ (l : List FieldK) (m : Menus) (g : FieldK),
    g ∉ l →
    ((l.foldl (fun a k => a.set k (resetF (a.get k))) m).get g) = m.get g := by
  intro l
  induction l with
  | nil => intro m g _; rfl
  | cons f rest ih =>
    intro m g hg
    have hgf : g ≠ f := fun e => hg (e ▸ List.mem_cons_self _ _)
    have hgr : g ∉ rest := fun e => hg (List.mem_cons_of_mem _ e)
    show ((rest.foldl _ (m.set f (resetF (m.get f)))).get g) = m.get g
    rw [ih _ g hgr, Menus.get_set_ne _ _ _ _ hgf]

/-- The reset fold resets every field of a duplicate-free list. -/
theorem resetFold_get_mem : ∀ (l : List FieldK) (m : Menus) (g : FieldK),
    l.Nodup → g ∈ l →
    ((l.foldl (fun a k => a.set k (resetF (a.get k))) m).get g) =
      resetF (m.get g) := by
  intro l
  induction l with
  | nil => intro m g _ hg; simp at hg
  | cons f rest ih =>
    intro m g hnd hg
    have hnd' := List.nodup_cons.mp hnd
    show ((rest.foldl _ (m.set f (resetF (m.get f)))).get g) = _
    by_cases hgf : g = f
    · subst hgf
      rw [resetFold_get_not_mem rest _ g hnd'.1, Menus.get_set_self]
    · rcases List.mem_cons.mp hg with h | h
      · exact absurd h hgf
      · rw [ih _ g hnd'.2 h, Menus.get_set_ne _ _ _ _ hgf]

/-- The reset fold never changes a visibility flag. -/
theorem resetFold_visible : ∀ (l : List FieldK) (m : Menus) (g : FieldK),
    (((l.foldl (fun a k => a.set k (resetF (a.get k))) m).get g)).visible =
      (m.get g).visible := by
  intro l
  induction l with
  | nil => intro m g; rfl
  | cons f rest ih =>
    intro m g
    show (((rest.foldl _ (m.set f (resetF (m.get f)))).get g)).visible = _
    rw [ih]
    by_cases hgf : g = f
    · subst hgf; rw [Menus.get_set_self]; rfl
    · rw [Menus.get_set_ne _ _ _ _ hgf]

/-- Fields that the recompute leaves hidden are in the reset state: every
hidden field other than the always-visible material and subject menus was
reset by the recompute itself. -/
theorem update_hidden_reset (k : FieldK) (m : Menus) (g : FieldK)
    (hg1 : g ≠ .material) (hg2 : g ≠ .subject)
    (hvis : ((update_menu_state k m).get g).visible = false) :
    ((update_menu_state k m).get g).value = sentinel ∧
    ((update_menu_state k m).get g).enabled = false := by
  cases g with
  | material => exact absurd rfl hg1
  | subject => exact absurd rfl hg2
  | provider =>
    revert hvis
    simp only [update_menu_state]
    rw [applyVis_get_ne _ _ _ _ (show FieldK.provider ≠ .volume by decide),
      applyVis_get_ne _ _ _ _ (show FieldK.provider ≠ .grade by decide),
      applyVis_get_self]
    split_ifs <;> simp [resetF]
  | category =>
    revert hvis
    simp only [update_menu_state]
    rw [applyVis_get_ne _ _ _ _ (show FieldK.category ≠ .volume by decide),
      applyVis_get_ne _ _ _ _ (show FieldK.category ≠ .grade by decide),
      applyVis_get_ne _ _ _ _ (show FieldK.category ≠ .provider by decide),
      applyVis_get_ne _ _ _ _ (show FieldK.category ≠ .stage by decide),
      applyVis_get_self]
    split_ifs <;> simp [resetF]
  | stage =>
    revert hvis
    simp only [update_menu_state]
    rw [applyVis_get_ne _ _ _ _ (show FieldK.stage ≠ .volume by decide),
      applyVis_get_ne _ _ _ _ (show FieldK.stage ≠ .grade by decide),
      applyVis_get_ne _ _ _ _ (show FieldK.stage ≠ .provider by decide),
      applyVis_get_self]
    split_ifs <;> simp [resetF]
  | grade =>
    revert hvis
    simp only [update_menu_state]
    rw [applyVis_get_ne _ _ _ _ (show FieldK.grade ≠ .volume by decide),
      applyVis_get_self]
    split_ifs <;> simp [resetF]
  | volume =>
    revert hvis
    simp only [update_menu_state]
    rw [applyVis_get_self]
    split_ifs <;> simp [resetF]

/-- The visibility assignment of a menu state evaluated at a field is that
field's visibility flag. -/
theorem boolsOf_get (m : Menus) (f : FieldK) :
    boolsOf m.material.visible m.subject.visible m.provider.visible
      m.category.visible m.stage.visible m.grade.visible m.volume.visible f =
    (m.get f).visible := by
  cases f <;> rfl

/-- The recompute never touches the material field. -/
theorem update_get_material (k : FieldK) (m : Menus) :
    (update_menu_state k m).get .material = m.material := by
  simp only [update_menu_state]
  rw [applyVis_get_ne _ _ _ _ (show FieldK.material ≠ .volume by decide),
    applyVis_get_ne _ _ _ _ (show FieldK.material ≠ .grade by decide),
    applyVis_get_ne _ _ _ _ (show FieldK.material ≠ .provider by decide),
    applyVis_get_ne _ _ _ _ (show FieldK.material ≠ .stage by decide),
    applyVis_get_ne _ _ _ _ (show FieldK.material ≠ .category by decide),
    applyVis_get_ne _ _ _ _ (show FieldK.material ≠ .provider by decide)]
  rfl

/-- The recompute never touches the subject field (its width change is pure
display). -/
theorem update_get_subject (k : FieldK) (m : Menus) :
    (update_menu_state k m).get .subject = m.subject := by
  simp only [update_menu_state]
  rw [applyVis_get_ne _ _ _ _ (show FieldK.subject ≠ .volume by decide),
    applyVis_get_ne _ _ _ _ (show FieldK.subject ≠ .grade by decide),
    applyVis_get_ne _ _ _ _ (show FieldK.subject ≠ .provider by decide),
    applyVis_get_ne _ _ _ _ (show FieldK.subject ≠ .stage by decide),
    applyVis_get_ne _ _ _ _ (show FieldK.subject ≠ .category by decide),
    applyVis_get_ne _ _ _ _ (show FieldK.subject ≠ .provider by decide)]
  rfl

/-! ## Claim C7 -/

/-- C7 counterexample: a completed top-category transition on a tree with a
deeper level leaves the next field (the subject menu, at a greater cascade
index than the changed material menu) enabled, not disabled as the claim
requires; it does hold the sentinel. -/
theorem c7_counterexample :
    on_option_change cTree7 .material cSt7 = .ok cSt7' ∧
    fieldIdx .material < fieldIdx .subject ∧
    (cSt7'.menus.get .subject).enabled = true ∧
    (cSt7'.menus.get .subject).value = sentinel := by
  refine ⟨?_, by decide, rfl, rfl⟩
  rfl

/-- Any completed transition leaves the menus either exactly in the
recompute-and-reset state (resolve step) or in that state with the
populated next field enabled and given options (populate step). -/
theorem on_option_change_menus_shape :
    ∀ (tree : List (String × Node)) (k : FieldK) (st st' : TState),
    on_option_change tree k st = .ok st' →
    st'.menus = resetAfter (update_menu_state k st.menus)
        (visibleKeys (update_menu_state k st.menus))
        ((visibleKeys (update_menu_state k st.menus)).indexOf k + 1) ∨
    (∃ nk names,
      (visibleKeys (update_menu_state k st.menus)).get?
          ((visibleKeys (update_menu_state k st.menus)).indexOf k + 1) =
        some nk ∧
      st'.menus = (resetAfter (update_menu_state k st.menus)
          (visibleKeys (update_menu_state k st.menus))
          ((visibleKeys (update_menu_state k st.menus)).indexOf k + 1)).set nk
        { (resetAfter (update_menu_state k st.menus)
            (visibleKeys (update_menu_state k st.menus))
            ((visibleKeys (update_menu_state k st.menus)).indexOf k + 1)).get
            nk with
          options := names, enabled := true }) := by
  intro tree k st st' h
  simp only [on_option_change] at h
  split at h
  · split at h
    · exact absurd h (by simp)
    · split at h
      · split at h
        · exact absurd h (by simp)
        · split at h
          · exact absurd h (by simp)
          · split at h
            · exact absurd h (by simp)
            · rename_i ts htag hscr nk hnk
              injection h with h2
              exact Or.inr ⟨nk, ts, hnk, by rw [← h2]⟩
      · split at h
        · exact absurd h (by simp)
        · injection h with h2
          exact Or.inl (by rw [← h2])
  · exact absurd h (by simp)

/-- resetAfter is the fold that resets the listed fields from the start
index on. -/
theorem resetAfter_eq_fold (m : Menus) (ks : List FieldK) (s : Nat) :
    resetAfter m ks s =
      (ks.drop s).foldl (fun a k => a.set k (resetF (a.get k))) m := rfl

/-- C7 amended: after any completed transition of a state whose material and
subject menus are visible (the code never hides them), every field at a
cascade index greater than the changed field holds the sentinel, and the
only such field that may be enabled is the first visible field after the
changed one (repopulated with the next level options); all others are
disabled. -/
theorem c7_amended :
    ∀ (tree : List (String × Node)) (k : FieldK) (st st' : TState),
    st.menus.material.visible = true → st.menus.subject.visible = true →
    on_option_change tree k st = .ok st' →
    ∀ g : FieldK, fieldIdx k < fieldIdx g →
      (st'.menus.get g).value = sentinel ∧
      ((st'.menus.get g).enabled = true →
        (st'.menus.get g).visible = true ∧
        ∀ f : FieldK, (st'.menus.get f).visible = true →
          fieldIdx k < fieldIdx f → fieldIdx f < fieldIdx g → False) := by
  intro tree k st st' hmvis hsvis h g hkg
  have hgm : g ≠ FieldK.material := by
    intro e; subst e; cases k <;> simp [fieldIdx] at hkg
  have hmem : k ∈ visibleKeys (update_menu_state k st.menus) := by
    by_contra hmem
    have : on_option_change tree k st = .error .valueError := by
      simp only [on_option_change]
      rw [if_neg hmem]
    rw [this] at h
    exact absurd h (by simp)
  have hks := visibleKeys_eq_filter (update_menu_state k st.menus)
  have hbsk : boolsOf (update_menu_state k st.menus).material.visible
      (update_menu_state k st.menus).subject.visible
      (update_menu_state k st.menus).provider.visible
      (update_menu_state k st.menus).category.visible
      (update_menu_state k st.menus).stage.visible
      (update_menu_state k st.menus).grade.visible
      (update_menu_state k st.menus).volume.visible k = true :=
    (List.mem_filter.mp (hks ▸ hmem)).2
  have hndks : (visibleKeys (update_menu_state k st.menus)).Nodup := by
    rw [hks]
    exact List.Nodup.filter _ (by decide)
  have hnddrop : ((visibleKeys (update_menu_state k st.menus)).drop
      ((visibleKeys (update_menu_state k st.menus)).indexOf k + 1)).Nodup :=
    List.Nodup.sublist (List.drop_sublist _ _) hndks
  have hreset : ∀ g2 : FieldK,
      g2 ∈ (visibleKeys (update_menu_state k st.menus)).drop
        ((visibleKeys (update_menu_state k st.menus)).indexOf k + 1) →
      ((resetAfter (update_menu_state k st.menus)
        (visibleKeys (update_menu_state k st.menus))
        ((visibleKeys (update_menu_state k st.menus)).indexOf k + 1)).get g2) =
        resetF ((update_menu_state k st.menus).get g2) := by
    intro g2 hg2
    rw [resetAfter_eq_fold]
    exact resetFold_get_mem _ _ _ hnddrop hg2
  have hkeep : ∀ g2 : FieldK,
      g2 ∉ (visibleKeys (update_menu_state k st.menus)).drop
        ((visibleKeys (update_menu_state k st.menus)).indexOf k + 1) →
      ((resetAfter (update_menu_state k st.menus)
        (visibleKeys (update_menu_state k st.menus))
        ((visibleKeys (update_menu_state k st.menus)).indexOf k + 1)).get g2) =
        (update_menu_state k st.menus).get g2 := by
    intro g2 hg2
    rw [resetAfter_eq_fold]
    exact resetFold_get_not_mem _ _ _ hg2
  have hm2vis : ∀ f : FieldK,
      ((resetAfter (update_menu_state k st.menus)
        (visibleKeys (update_menu_state k st.menus))
        ((visibleKeys (update_menu_state k st.menus)).indexOf k + 1)).get
          f).visible = ((update_menu_state k st.menus).get f).visible := by
    intro f
    rw [resetAfter_eq_fold]
    exact resetFold_visible _ _ _
  rcases on_option_change_menus_shape tree k st st' h with hshape | ⟨nk, names, hnk, hshape⟩
  · -- resolve step: the menus are exactly the reset state
    by_cases hgvis : ((update_menu_state k st.menus).get g).visible = true
    · have hbsg : boolsOf (update_menu_state k st.menus).material.visible
          (update_menu_state k st.menus).subject.visible
          (update_menu_state k st.menus).provider.visible
          (update_menu_state k st.menus).category.visible
          (update_menu_state k st.menus).stage.visible
          (update_menu_state k st.menus).grade.visible
          (update_menu_state k st.menus).volume.visible g = true := by
        rw [boolsOf_get]; exact hgvis
      have hdropg : g ∈ (visibleKeys (update_menu_state k st.menus)).drop
          ((visibleKeys (update_menu_state k st.menus)).indexOf k + 1) := by
        rw [hks]
        exact visible_after_in_drop _ _ _ _ _ _ _ k g hbsk hbsg hkg
      rw [hshape, hreset g hdropg]
      exact ⟨rfl, fun hen => absurd hen (by simp [resetF])⟩
    · have hgvis2 : ((update_menu_state k st.menus).get g).visible = false := by
        cases hx : ((update_menu_state k st.menus).get g).visible
        · rfl
        · exact absurd hx hgvis
      have hgs : g ≠ FieldK.subject := by
        intro e; subst e
        rw [update_get_subject] at hgvis2
        rw [hsvis] at hgvis2
        exact absurd hgvis2 (by simp)
      have hprops := update_hidden_reset k st.menus g hgm hgs hgvis2
      have hnotin : g ∉ (visibleKeys (update_menu_state k st.menus)).drop
          ((visibleKeys (update_menu_state k st.menus)).indexOf k + 1) := by
        intro hmem2
        have hmem3 : g ∈ visibleKeys (update_menu_state k st.menus) :=
          List.drop_subset _ _ hmem2
        rw [hks] at hmem3
        have hb := (List.mem_filter.mp hmem3).2
        rw [boolsOf_get, hgvis2] at hb
        exact absurd hb (by simp)
      rw [hshape, hkeep g hnotin]
      exact ⟨hprops.1, fun hen => absurd hen (by rw [hprops.2]; simp)⟩
  · -- populate step
    have hnkfacts := next_visible_facts _ _ _ _ _ _ _ k hbsk nk
      (by rw [← hks]; exact hnk)
    have hnkdrop : nk ∈ (visibleKeys (update_menu_state k st.menus)).drop
        ((visibleKeys (update_menu_state k st.menus)).indexOf k + 1) := by
      rw [hks]
      exact hnkfacts.1
    by_cases hgnk : g = nk
    · subst hgnk
      rw [hshape, Menus.get_set_self]
      have hval : ((resetAfter (update_menu_state k st.menus)
          (visibleKeys (update_menu_state k st.menus))
          ((visibleKeys (update_menu_state k st.menus)).indexOf k + 1)).get
            g).value = sentinel := by
        rw [hreset g hnkdrop]
        rfl
      refine ⟨hval, fun _ => ⟨?_, ?_⟩⟩
      · show ((resetAfter (update_menu_state k st.menus)
            (visibleKeys (update_menu_state k st.menus))
            ((visibleKeys (update_menu_state k st.menus)).indexOf k + 1)).get
              g).visible = true
        rw [hm2vis g, ← boolsOf_get]
        exact hnkfacts.2.1
      · intro f hfvis hkf hfg
        have hfnk : f ≠ g := by
          intro e; rw [e] at hfg; omega
        rw [Menus.get_set_ne _ _ _ _ hfnk, hm2vis f] at hfvis
        exact hnkfacts.2.2.2 f (by rw [boolsOf_get]; exact hfvis) hkf hfg
    · -- g is not the populated field
      have hget : st'.menus.get g =
          (resetAfter (update_menu_state k st.menus)
            (visibleKeys (update_menu_state k st.menus))
            ((visibleKeys (update_menu_state k st.menus)).indexOf k + 1)).get
            g := by
        rw [hshape, Menus.get_set_ne _ _ _ _ hgnk]
      by_cases hgvis : ((update_menu_state k st.menus).get g).visible = true
      · have hbsg : boolsOf (update_menu_state k st.menus).material.visible
            (update_menu_state k st.menus).subject.visible
            (update_menu_state k st.menus).provider.visible
            (update_menu_state k st.menus).category.visible
            (update_menu_state k st.menus).stage.visible
            (update_menu_state k st.menus).grade.visible
            (update_menu_state k st.menus).volume.visible g = true := by
          rw [boolsOf_get]; exact hgvis
        have hdropg : g ∈ (visibleKeys (update_menu_state k st.menus)).drop
            ((visibleKeys (update_menu_state k st.menus)).indexOf k + 1) := by
          rw [hks]
          exact visible_after_in_drop _ _ _ _ _ _ _ k g hbsk hbsg hkg
        rw [hget, hreset g hdropg]
        exact ⟨rfl, fun hen => absurd hen (by simp [resetF])⟩
      · have hgvis2 : ((update_menu_state k st.menus).get g).visible = false := by
          cases hx : ((update_menu_state k st.menus).get g).visible
          · rfl
          · exact absurd hx hgvis
        have hgs : g ≠ FieldK.subject := by
          intro e; subst e
          rw [update_get_subject] at hgvis2
          rw [hsvis] at hgvis2
          exact absurd hgvis2 (by simp)
        have hprops := update_hidden_reset k st.menus g hgm hgs hgvis2
        have hnotin : g ∉ (visibleKeys (update_menu_state k st.menus)).drop
            ((visibleKeys (update_menu_state k st.menus)).indexOf k + 1) := by
          intro hmem2
          have hmem3 : g ∈ visibleKeys (update_menu_state k st.menus) :=
            List.drop_subset _ _ hmem2
          rw [hks] at hmem3
          have hb := (List.mem_filter.mp hmem3).2
          rw [boolsOf_get, hgvis2] at hb
          exact absurd hb (by simp)
        rw [hget, hkeep g hnotin]
        exact ⟨hprops.1, fun hen => absurd hen (by rw [hprops.2]; simp)⟩

/-- C7 witness: the amended statement applied to the concrete completed
transition of the counterexample tree, at the provider field. -/
theorem c7_witness :
    cSt7.menus.material.visible = true ∧ cSt7.menus.subject.visible = true ∧
    on_option_change cTree7 .material cSt7 = .ok cSt7' ∧
    fieldIdx .material < fieldIdx .provider ∧
    (cSt7'.menus.get .provider).value = sentinel ∧
    ((cSt7'.menus.get .provider).enabled = true →
      (cSt7'.menus.get .provider).visible = true ∧
      ∀ f : FieldK, (cSt7'.menus.get f).visible = true →
        fieldIdx .material < fieldIdx f →
        fieldIdx f < fieldIdx .provider → False) := by
  have h : on_option_change cTree7 .material cSt7 = .ok cSt7' := by rfl
  have hc := c7_amended cTree7 .material cSt7 cSt7' rfl rfl h .provider
    (by decide)
  exact ⟨rfl, rfl, h, by decide, hc.1, hc.2⟩

/-! ## Claim C6 -/

/-- The published state of a resolving transition: when the changed field is
visible, the descent completes and no deeper menu is to be populated, the
transition publishes the flattened resources together with their stats. -/
theorem on_option_change_resolve (tree : List (String × Node)) (k : FieldK)
    (st : TState) (mats : Option (List (String × Node))) (stop : Bool)
    (sz : Nat)
    (hmem : k ∈ visibleKeys (update_menu_state k st.menus))
    (hdesc : descend (some tree)
      (((visibleKeys (update_menu_state k st.menus)).take
          ((visibleKeys (update_menu_state k st.menus)).indexOf k + 1)).map
        (fun f => ((resetAfter (update_menu_state k st.menus)
          (visibleKeys (update_menu_state k st.menus))
          ((visibleKeys (update_menu_state k st.menus)).indexOf k + 1)).get
            f).value)) = .ok (mats, stop))
    (hpop : ((visibleKeys (update_menu_state k st.menus)).indexOf k + 1 <
        (visibleKeys (update_menu_state k st.menus)).length && !stop) = false)
    (hsz : sizeTotalE ((flattenCaught mats).getD []) = .ok sz) :
    on_option_change tree k st = .ok
      { menus := resetAfter (update_menu_state k st.menus)
          (visibleKeys (update_menu_state k st.menus))
          ((visibleKeys (update_menu_state k st.menus)).indexOf k + 1),
        resources := (flattenCaught mats).getD [],
        size_total := sz,
        count_total := ((flattenCaught mats).getD []).length,
        statusSet := true,
        downloadEnabled := !((flattenCaught mats).getD []).isEmpty,
        errorReported := (flattenCaught mats).isNone } := by
  simp only [on_option_change]
  rw [if_pos hmem, hdesc]
  simp [hpop, hsz]

/-- The caught flattening succeeds exactly when parse_resource does. -/
theorem flattenCaught_ok {entries out : List (String × Node)}
    (h : parse_resource entries = .ok out) :
    flattenCaught (some entries) = some out := by
  simp [flattenCaught, h]

/-- A raising flattening is caught and yields no resource set. -/
theorem flattenCaught_err {entries : List (String × Node)} {e : PyErr}
    (h : parse_resource entries = .error e) :
    flattenCaught (some entries) = none := by
  simp [flattenCaught, h]

/-- When every record of the resource set carries a custom_properties
mapping, the status sum succeeds and equals the sum of declared sizes. -/
theorem sizeTotalE_ok (rs : List (String × Node))
    (h : ∀ p ∈ rs, (p.2).customProperties.isSome = true) :
    sizeTotalE rs = .ok (declaredSum rs) := by
  induction rs with
  | nil => rfl
  | cons q rest ih =>
    obtain ⟨k, n⟩ := q
    have hn := h (k, n) (List.mem_cons_self _ _)
    cases hcp : n.customProperties with
    | none => rw [hcp] at hn; simp at hn
    | some cp =>
      simp only [sizeTotalE, hcp]
      rw [ih (fun p hp => h p (List.mem_cons_of_mem _ hp))]
      simp [declaredSum, declaredSize, hcp]

/-- C6: after any completed transition whose resource records all carry a
custom_properties mapping, the published size_total is the exact integer sum
of the declared sizes (an absent size counting as 0) and count_total is the
number of resources in the published Resource Set. -/
theorem c6_stats : ∀ (tree : List (String × Node)) (k : FieldK)
    (st st' : TState),
    on_option_change tree k st = .ok st' →
    (∀ p ∈ st'.resources, (p.2).customProperties.isSome = true) →
    st'.size_total = declaredSum st'.resources ∧
    st'.count_total = st'.resources.length := by
  intro tree k st st' h hcp
  simp only [on_option_change] at h
  split at h
  · split at h
    · exact absurd h (by simp)
    · split at h
      · split at h
        · exact absurd h (by simp)
        · split at h
          · exact absurd h (by simp)
          · split at h
            · exact absurd h (by simp)
            · injection h with h'
              rw [← h']
              simp [declaredSum]
      · split at h
        · exact absurd h (by simp)
        · rename_i sz hsz
          injection h with h'
          rw [← h'] at hcp ⊢
          have h2 := sizeTotalE_ok _ hcp
          have h4 := hsz.symm.trans h2
          injection h4 with h3
          exact ⟨h3, rfl⟩
  · exact absurd h (by simp)

/-- C6 witness: resolving the concrete four-level selection reaching three
resources of sizes 1000, 2048 and 0 publishes count_total 3 and size_total
3048. -/
theorem c6_witness :
    on_option_change cTree6 .grade cSt6 = .ok cSt6' ∧
    cSt6'.size_total = 3048 ∧ cSt6'.count_total = 3 ∧
    cSt6'.size_total = declaredSum cSt6'.resources ∧
    cSt6'.count_total = cSt6'.resources.length := by
  have hpr : parse_resource leafMap3 = .ok leafMap3 := by
    show parseResourceGo leafMap3 [] = .ok leafMap3
    rw [leafMap3]
    simp [parseResourceGo, res1000, res2048, res0, upsert]
  have hflat : flattenCaught (some leafMap3) = some leafMap3 :=
    flattenCaught_ok hpr
  have h1 := on_option_change_resolve cTree6 .grade cSt6 (some leafMap3)
    false 3048 (by decide) (by rfl) (by rfl)
    (by simp only [hflat]; rfl)
  simp only [hflat] at h1
  have h : on_option_change cTree6 .grade cSt6 = .ok cSt6' := h1.trans rfl
  have hc := c6_stats cTree6 .grade cSt6 cSt6' h
    (by
      intro p hp
      have hp2 : p ∈ leafMap3 := hp
      simp only [leafMap3, List.mem_cons, List.not_mem_nil, or_false] at hp2
      rcases hp2 with h1 | h1 | h1 <;> rw [h1] <;> rfl)
  exact ⟨h, rfl, rfl, hc.1, hc.2⟩

/-! ## Claim C8 -/

/-- C8: when a transition resolves (no deeper menu to populate) and
flattening the reached subtree raises, the exception is caught: the
transition still completes, the recoverable failure is reported, the
published resource set is empty with zero stats and the download button
disabled, and the selector menus are exactly the reset state computed
before the flattening — the same menus any resolving transition of this
state produces, so the failure does not corrupt selector state. -/
theorem c8_flatten_caught (tree : List (String × Node)) (k : FieldK)
    (st : TState) (mats : Option (List (String × Node))) (stop : Bool)
    (hmem : k ∈ visibleKeys (update_menu_state k st.menus))
    (hdesc : descend (some tree)
      (((visibleKeys (update_menu_state k st.menus)).take
          ((visibleKeys (update_menu_state k st.menus)).indexOf k + 1)).map
        (fun f => ((resetAfter (update_menu_state k st.menus)
          (visibleKeys (update_menu_state k st.menus))
          ((visibleKeys (update_menu_state k st.menus)).indexOf k + 1)).get
            f).value)) = .ok (mats, stop))
    (hpop : ((visibleKeys (update_menu_state k st.menus)).indexOf k + 1 <
        (visibleKeys (update_menu_state k st.menus)).length && !stop) = false)
    (hflat : flattenCaught mats = none) :
    on_option_change tree k st = .ok
      { menus := resetAfter (update_menu_state k st.menus)
          (visibleKeys (update_menu_state k st.menus))
          ((visibleKeys (update_menu_state k st.menus)).indexOf k + 1),
        resources := [], size_total := 0, count_total := 0,
        statusSet := true, downloadEnabled := false,
        errorReported := true } := by
  simp only [on_option_change]
  rw [if_pos hmem, hdesc]
  simp [hpop, hflat, sizeTotalE]

/-- C8 witness: selecting 乙 on a tree holding only 甲 with a None children
value stops the descent, and flattening the kept level raises; the
transition completes with the reported failure and the reset menus. -/
theorem c8_witness :
    on_option_change cTree8 .material cSt8 = .ok
      { menus := resetAfter (update_menu_state .material cSt8.menus)
          (visibleKeys (update_menu_state .material cSt8.menus))
          ((visibleKeys
              (update_menu_state .material cSt8.menus)).indexOf .material + 1),
        resources := [], size_total := 0, count_total := 0,
        statusSet := true, downloadEnabled := false,
        errorReported := true } :=
  c8_flatten_caught cTree8 .material cSt8 (some cTree8) true
    (by decide) (by rfl) (by rfl)
    (flattenCaught_err (by
      show parseResourceGo cTree8 [] = .error .attributeError
      rw [cTree8]
      simp [parseResourceGo]))
